import Mathlib

/-!
Shallow embedding of the `topologia-redes` network simulator.

Two revisions of the program exist in the repository and are embedded
separately:

* namespace `R` embeds `src/rede.py` (array-scan Dijkstra, stripped host ip);
* namespace `T` embeds `src/topologia.py` (heap-based Dijkstra called `bfs`,
  full address string stored, link log `enlaces`).

Python objects held in dictionaries keyed by `Dispositivo` are represented by
an arena: `Rede.dispositivos` is the insertion-ordered device list and devices
are referenced by their position (a `Nat`).  Python `dict`s keyed by devices
become association lists over those indices with insertion-order upsert
semantics; `float('inf')` distances become `none : Option Nat`.
-/

/-- Link attributes stored in a device's neighbor map, the tuple
`(custo, tipo_enlace/enlace, capacidade, justificativa)` of both revisions. -/
structure Link where
  custo : Nat
  enlace : String
  capacidade : String
  justificativa : String
deriving DecidableEq, Inhabited, Repr

/-- Python-dict update on an association list: overwriting an existing key
keeps its position in iteration order, a new key is appended at the end. -/
def upsert {κ β : Type} [DecidableEq κ] (l : List (κ × β)) (k : κ) (v : β) :
    List (κ × β) :=
  match l with
  | [] => [(k, v)]
  | (k1, v1) :: t => if k1 = k then (k, v) :: t else (k1, v1) :: upsert t k v

/-- Association-list lookup (Python dict access / `in` test). -/
def lookupC {κ β : Type} [DecidableEq κ] (l : List (κ × β)) (k : κ) : Option β :=
  match l with
  | [] => none
  | (k1, v1) :: t => if k1 = k then some v1 else lookupC t k

/-- Strict comparison of tentative distances, `none` playing the role of
`float('inf')` (`some a < some b` iff `a < b`, every `some` is below `none`,
`none` is below nothing). -/
def optLtB : Option Nat → Option Nat → Bool
  | some a, some b => decide (a < b)
  | some _, none => true
  | none, _ => false

/-- Tentative distance plus an edge cost; infinity absorbs. -/
def optAdd : Option Nat → Nat → Option Nat
  | some a, c => some (a + c)
  | none, _ => none

/-- Pointwise update of a map, modelling assignment into a Python dict. -/
def updO {α : Type} (m : Nat → α) (k : Nat) (v : α) : Nat → α :=
  fun x => if x = k then v else m x

/-- Split a character list at every occurrence of `c` (Python `str.split`).
The accumulator holds the current piece reversed; the result is never
empty. -/
def splitAux (c : Char) : List Char → List Char → List (List Char)
  | [], acc => [acc.reverse]
  | x :: xs, acc =>
    if x = c then acc.reverse :: splitAux c xs [] else splitAux c xs (x :: acc)

/-- Python `s.split(c)` for a one-character separator: `"a/b".split('/') =
["a", "b"]`, `"a".split('/') = ["a"]`, `"a//b".split('/') = ["a", "", "b"]`.
(A structurally recursive stand-in for `String.splitOn`, which matches it on
one-character separators and, unlike it, evaluates inside the kernel.) -/
def splitOnC (s : String) (c : Char) : List String :=
  (splitAux c s.data []).map String.mk

/-! ## Walks in the adjacency structure

The adjacency view of a topology assigns to each arena index the list of
`(neighbor index, cost)` pairs read off the device's neighbor map, in
insertion order.  A walk starting at `u` is given by the list of vertices it
subsequently visits; its cost adds up the stored edge costs and is `none`
when some step is not an edge. -/

/-- Cost of the walk that starts at `u` and then visits the vertices of `t`
in order. -/
def walkCost (adj : Nat → List (Nat × Nat)) : Nat → List Nat → Option Nat
  | _, [] => some 0
  | u, v :: t =>
    match lookupC (adj u) v with
    | none => none
    | some c => optAdd (walkCost adj v t) c

/-- Final vertex of the walk that starts at `u` and then visits `t`. -/
def endV : Nat → List Nat → Nat
  | u, [] => u
  | _, v :: t => endV v t

/-- There is a walk from `s` to `v` of total cost `c`. -/
def ReachesC (adj : Nat → List (Nat × Nat)) (s v c : Nat) : Prop :=
  ∃ t, endV s t = v ∧ walkCost adj s t = some c

/-- `v` is reachable from `s`. -/
def Reachable (adj : Nat → List (Nat × Nat)) (s v : Nat) : Prop :=
  ∃ c, ReachesC adj s v c

/-- `d` is the least cost of any walk from `s` to `v`. -/
def IsMinCost (adj : Nat → List (Nat × Nat)) (s v d : Nat) : Prop :=
  ReachesC adj s v d ∧ ∀ c, ReachesC adj s v c → d ≤ c

/-- Well-formedness of an adjacency view over `n` devices: out-of-range
sources have no edges, edge targets are in range, and — the Python `dict`
invariant — a device's neighbor keys are pairwise distinct. -/
structure GraphWF (adj : Nat → List (Nat × Nat)) (n : Nat) : Prop where
  oob : ∀ u, n ≤ u → adj u = []
  tgt : ∀ u vc, vc ∈ adj u → vc.1 < n
  keysNodup : ∀ u, ((adj u).map Prod.fst).Nodup

/-- Source-to-destination vertex sequence obtained by following predecessor
pointers upward from `v` (the reversal of the collection loop used by
`traceroute` and the routing-table builders). -/
def predChain (pred : Nat → Option Nat) : Nat → Nat → List Nat
  | 0, v => [v]
  | Nat.succ f, v =>
    match pred v with
    | none => [v]
    | some u => predChain pred f u ++ [v]

/-- Joint postcondition established for both shortest-path engines: the
distance and predecessor maps they return satisfy exactly these facts, from
which optimality of the encoded paths follows. -/
structure SPOut (adj : Nat → List (Nat × Nat)) (n s : Nat)
    (dist pred : Nat → Option Nat) : Prop where
  dist_s : dist s = some 0
  pred_s : pred s = none
  pred_none : ∀ v, v < n → pred v = none → v = s ∨ dist v = none
  link : ∀ v u, pred v = some u → u < n ∧ v < n ∧ v ≠ s ∧
    ∃ c du, lookupC (adj u) v = some c ∧ dist u = some du ∧
      dist v = some (du + c)
  rank : ∃ r : Nat → Nat, ∀ v u, pred v = some u → r u < r v
  relaxed : ∀ u, u < n → ∀ vc, vc ∈ adj u →
    optLtB (optAdd (dist u) vc.2) (dist vc.1) = false

/-! ## `src/rede.py` -/

namespace R

/-- `Dispositivo` of `src/rede.py` (lines 4-39).  `ip` stores the address with
the mask removed (`ip.split('/')[0]`); the optional `tabela` holds the routing
table that the constructor creates (empty) for `tipo == 'roteador'`. -/
structure Dispositivo where
  nome : String
  ip : String
  subnet : Option String
  tipo : String
  gateway : Option String
  vizinhos : List (Nat × Link)
  tabela : List (String × String)
deriving DecidableEq, Inhabited, Repr

/-- `Dispositivo.calcular_subnet` (rede.py lines 25-32).  `ip.split('/')`
unpacked into two names raises `ValueError` unless the address has exactly one
`'/'`; that exception is the `Except.error` case.  With no `'/'` the method
returns `None`; otherwise the last octet is replaced by `'0'` and the mask is
appended. -/
def calcularSubnet (ip : String) : Except Unit (Option String) :=
  let parts := splitOnC ip '/'
  if parts.length = 1 then Except.ok none
  else if parts.length = 2 then
    let ipPart := parts.headD ""
    let mask := (parts.getLast?).getD ""
    let oct := splitOnC ipPart '.'
    Except.ok (some (String.intercalate "." (oct.dropLast ++ ["0"]) ++ "/" ++ mask))
  else Except.error ()

/-- `Dispositivo.__init__` (rede.py lines 5-23).  The stored ip is the
address without its mask; the subnet is the `subnet` argument when that is
truthy (Python `or`: `None` and `''` fall through), else the computed one.
An exception from `calcular_subnet` aborts construction. -/
def mkDispositivo (nome ip tipo : String) (gateway subnet : Option String) :
    Except Unit Dispositivo :=
  let ipSolo := (splitOnC ip '/').headD ""
  let sub : Except Unit (Option String) :=
    match subnet with
    | some s => if s = "" then calcularSubnet ip else Except.ok (some s)
    | none => calcularSubnet ip
  match sub with
  | Except.error e => Except.error e
  | Except.ok s =>
    Except.ok { nome := nome, ip := ipSolo, subnet := s, tipo := tipo,
                gateway := gateway, vizinhos := [], tabela := [] }

/-- `Dispositivo.adicionar_vizinho` (rede.py lines 34-36): dict assignment
into the neighbor map. -/
def Dispositivo.adicionarVizinho (d : Dispositivo) (vizinho custo : Nat)
    (enlace capacidade justificativa : String) : Dispositivo :=
  let l : Link := { custo := custo, enlace := enlace, capacidade := capacidade,
                    justificativa := justificativa }
  { d with vizinhos := upsert d.vizinhos vizinho l }

/-- Replace the element at position `i` (mutation of one arena slot). -/
def modifyIdx {α : Type} (l : List α) (i : Nat) (f : α → α) : List α :=
  match l, i with
  | [], _ => []
  | a :: t, 0 => f a :: t
  | a :: t, Nat.succ k => a :: modifyIdx t k f

/-- `Rede` of rede.py (lines 41-43): just the insertion-ordered device list. -/
structure Rede where
  dispositivos : List Dispositivo
deriving DecidableEq, Inhabited, Repr

/-- Number of devices; arena indices range below it. -/
def Rede.n (r : Rede) : Nat := r.dispositivos.length

/-- The device at arena index `i`. -/
def Rede.dev (r : Rede) (i : Nat) : Dispositivo := (r.dispositivos[i]?).getD default

/-- `Rede.adicionar_dispositivo` (rede.py lines 45-46). -/
def Rede.adicionarDispositivo (r : Rede) (d : Dispositivo) : Rede :=
  { r with dispositivos := r.dispositivos ++ [d] }

/-- `Rede.adicionar_link` (rede.py lines 48-50): one `adicionar_vizinho` on
each endpoint with identical attributes. -/
def Rede.adicionarLink (r : Rede) (i j custo : Nat)
    (enlace capacidade justificativa : String) : Rede :=
  let ds1 := modifyIdx r.dispositivos i
    (fun d => d.adicionarVizinho j custo enlace capacidade justificativa)
  let ds2 := modifyIdx ds1 j
    (fun d => d.adicionarVizinho i custo enlace capacidade justificativa)
  { dispositivos := ds2 }

/-- Adjacency view of the topology: for each device the `(neighbor, custo)`
pairs of its neighbor map, in insertion order — exactly what
`atual.vizinhos.items()` destructured as `vizinho, (custo, *_)` exposes. -/
def Rede.adjOf (r : Rede) : Nat → List (Nat × Nat) :=
  fun u => ((r.dispositivos[u]?).map
    (fun d => d.vizinhos.map (fun p => (p.1, p.2.custo)))).getD []

/-- Topology well-formedness (automatic for topologies built through the
constructors): neighbor keys are in range and pairwise distinct. -/
def WF (r : Rede) : Prop := GraphWF r.adjOf r.n

/-- `min(nao_visitados, key=lambda d: distancias[d])`: the first element of
the list attaining the minimal tentative distance (`min` keeps the earliest
of equal keys; the unordered Python set is modelled by insertion order, the
determinism choice fixed in the specification). -/
def selectMin (dist : Nat → Option Nat) : List Nat → Option Nat
  | [] => none
  | u :: rest =>
    match selectMin dist rest with
    | none => some u
    | some m => if optLtB (dist m) (dist u) then some m else some u

/-- The relaxation loop `for vizinho, (custo, *_) in atual.vizinhos.items()`
of `Rede.dijkstra` (rede.py lines 63-67); `dist atual` is re-read at every
iteration as in the source. -/
def relaxFrom (atual : Nat) :
    List (Nat × Nat) → (Nat → Option Nat) → (Nat → Option Nat) →
    ((Nat → Option Nat) × (Nat → Option Nat))
  | [], dist, pred => (dist, pred)
  | (v, c) :: rest, dist, pred =>
    let alt := optAdd (dist atual) c
    if optLtB alt (dist v) then
      relaxFrom atual rest (updO dist v alt) (updO pred v (some atual))
    else
      relaxFrom atual rest dist pred

/-- The `while nao_visitados:` loop of `Rede.dijkstra` (rede.py lines 59-67).
Each pass settles the unvisited device of minimal tentative distance and
relaxes its edges; the fuel only has to cover the length of the unvisited
list, which shrinks by one per pass. -/
def dijkstraGo (adj : Nat → List (Nat × Nat)) :
    Nat → List Nat → (Nat → Option Nat) → (Nat → Option Nat) →
    ((Nat → Option Nat) × (Nat → Option Nat))
  | 0, _, dist, pred => (dist, pred)
  | Nat.succ fuel, unvisited, dist, pred =>
    match selectMin dist unvisited with
    | none => (dist, pred)
    | some atual =>
      let dp := relaxFrom atual (adj atual) dist pred
      dijkstraGo adj fuel (unvisited.erase atual) dp.1 dp.2

/-- `Rede.dijkstra` (rede.py lines 52-68), returning both maps; the source
returns `anteriores`, the second component. -/
def Rede.dijkstra (r : Rede) (s : Nat) :
    ((Nat → Option Nat) × (Nat → Option Nat)) :=
  dijkstraGo r.adjOf r.n (List.range r.n)
    (updO (fun _ => none) s (some 0)) (fun _ => none)

/-- `next((d for d in self.dispositivos if d.ip == addr), None)`: index of
the first device whose stored ip equals the argument. -/
def findFirstBy {α : Type} (ipOf : α → String) :
    List α → String → Option Nat
  | [], _ => none
  | d :: t, addr =>
    if ipOf d = addr then some 0 else (findFirstBy ipOf t addr).map (· + 1)

/-- Address resolution used by `ping`/`traceroute` in rede.py. -/
def Rede.resolve (r : Rede) (addr : String) : Option Nat :=
  findFirstBy Dispositivo.ip r.dispositivos addr

/-- `Rede.ping` (rede.py lines 94-106).  Note the success test is
`anteriores[destino] is not None`, and the success message carries no latency
figure. -/
def Rede.ping (r : Rede) (ipOrigem ipDestino : String) : String :=
  match r.resolve ipOrigem, r.resolve ipDestino with
  | none, _ => "Dispositivo de origem ou destino não encontrado."
  | some _, none => "Dispositivo de origem ou destino não encontrado."
  | some o, some dd =>
    let ant := (r.dijkstra o).2
    if (ant dd).isSome then
      "Ping de " ++ ipOrigem ++ " para " ++ ipDestino ++ " bem-sucedido."
    else
      "Ping de " ++ ipOrigem ++ " para " ++ ipDestino ++
        " falhou. Destino inalcançável."

/-- The collection loop of `traceroute`: destination first, following
predecessors while `passo_atual is not None`.  The fuel `r.n` always covers
the predecessor chain (its vertices are pairwise distinct, see `SPOut`). -/
def tracePath (pred : Nat → Option Nat) : Nat → Nat → List Nat
  | 0, v => [v]
  | Nat.succ f, v =>
    v :: (match pred v with
          | none => []
          | some u => tracePath pred f u)

/-- `Rede.traceroute` (rede.py lines 108-125): formats each visited device as
`nome (ip)`, reverses, and joins with `' -> '`; the `else` branch of the
final conditional is unreachable because the collected list always contains
the destination itself. -/
def Rede.traceroute (r : Rede) (ipOrigem ipDestino : String) : String :=
  match r.resolve ipOrigem, r.resolve ipDestino with
  | none, _ => "Dispositivo de origem ou destino não encontrado."
  | some _, none => "Dispositivo de origem ou destino não encontrado."
  | some o, some dd =>
    let ant := (r.dijkstra o).2
    let caminho := (tracePath ant r.n dd).map
      (fun i => (r.dev i).nome ++ " (" ++ (r.dev i).ip ++ ")")
    let caminho2 := caminho.reverse
    if caminho2.isEmpty then "Destino inalcançável." else
      String.intercalate " -> " caminho2

end R

/-! ## `src/topologia.py` -/

namespace T

/-- One value of the routing table built by `mostrar_tabelas_roteamento`
(topologia.py lines 204-209): destination name, next-hop name, next-hop ip. -/
structure TEntry where
  destino : String
  proximo : String
  ipProximo : String
deriving DecidableEq, Inhabited, Repr

/-- `Dispositivo` of `src/topologia.py` (lines 7-25).  The address is stored
verbatim (`self.ip = ip  # Com máscara e tudo`); `subnet` is the string the
external `ip_interface` collaborator produced at construction; `tabela` is
`{}` for routers and `None` otherwise. -/
structure Dispositivo where
  nome : String
  ip : String
  subnet : String
  tipo : String
  vizinhos : List (Nat × Link)
  tabela : Option (List (String × TEntry))
deriving DecidableEq, Inhabited, Repr

/-- `Dispositivo.adicionar_vizinho` (topologia.py lines 21-22). -/
def Dispositivo.adicionarVizinho (d : Dispositivo) (vizinho custo : Nat)
    (enlace capacidade justificativa : String) : Dispositivo :=
  let l : Link := { custo := custo, enlace := enlace, capacidade := capacidade,
                    justificativa := justificativa }
  { d with vizinhos := upsert d.vizinhos vizinho l }

/-- `Rede` of topologia.py (lines 29-32): devices plus the append-only link
log `enlaces`. -/
structure Rede where
  dispositivos : List Dispositivo
  enlaces : List (Nat × Nat × Link)
deriving DecidableEq, Inhabited, Repr

def Rede.n (r : Rede) : Nat := r.dispositivos.length

def Rede.dev (r : Rede) (i : Nat) : Dispositivo := (r.dispositivos[i]?).getD default

/-- `Rede.adicionar_dispositivo` (topologia.py lines 34-35). -/
def Rede.adicionarDispositivo (r : Rede) (d : Dispositivo) : Rede :=
  { r with dispositivos := r.dispositivos ++ [d] }

/-- `Rede.adicionar_link` (topologia.py lines 37-40): symmetric
`adicionar_vizinho` calls, then the link is recorded in `enlaces`. -/
def Rede.adicionarLink (r : Rede) (i j custo : Nat)
    (enlace capacidade justificativa : String) : Rede :=
  let ds1 := R.modifyIdx r.dispositivos i
    (fun d => d.adicionarVizinho j custo enlace capacidade justificativa)
  let ds2 := R.modifyIdx ds1 j
    (fun d => d.adicionarVizinho i custo enlace capacidade justificativa)
  let l : Link := { custo := custo, enlace := enlace, capacidade := capacidade,
                    justificativa := justificativa }
  { dispositivos := ds2, enlaces := r.enlaces ++ [(i, j, l)] }

/-- Adjacency view, as for rede.py. -/
def Rede.adjOf (r : Rede) : Nat → List (Nat × Nat) :=
  fun u => ((r.dispositivos[u]?).map
    (fun d => d.vizinhos.map (fun p => (p.1, p.2.custo)))).getD []

def WF (r : Rede) : Prop := GraphWF r.adjOf r.n

/-- A `heapq` entry `(distancia, counter, dispositivo)`. -/
abbrev Entry := Nat × Nat × Nat

/-- Lexicographic comparison of heap entries, exactly how Python orders the
tuples; counters are pairwise distinct so the device component never
decides. -/
def entryLeB (a b : Entry) : Bool :=
  decide (a.1 < b.1) ||
    (decide (a.1 = b.1) &&
      (decide (a.2.1 < b.2.1) ||
        (decide (a.2.1 = b.2.1) && decide (a.2.2 ≤ b.2.2))))

/-- `heapq.heappop`: remove and return the least entry.  The heap is modelled
as the multiset of its entries, which is all `heappush`/`heappop` observe. -/
def popMin : List Entry → Option (Entry × List Entry)
  | [] => none
  | e :: t =>
    match popMin t with
    | none => some (e, [])
    | some (m, rest) => if entryLeB e m then some (e, t) else some (m, e :: rest)

/-- `distancia_atual > distancias[dispositivo_atual]` (an `int` is never
greater than `float('inf')`). -/
def distGtB (d : Nat) : Option Nat → Bool
  | some x => decide (x < d)
  | none => false

/-- Result of the relaxation loop of `Rede.bfs`. -/
structure RelaxOut where
  counter : Nat
  dist : Nat → Option Nat
  pred : Nat → Option Nat
  pushes : List Entry

/-- The `for vizinho, (custo, _, _, _) in dispositivo_atual.vizinhos.items()`
loop of `Rede.bfs` (topologia.py lines 54-60): each strict improvement
updates both maps, increments the counter and pushes a fresh entry. -/
def relaxT (u d : Nat) :
    List (Nat × Nat) → Nat → (Nat → Option Nat) → (Nat → Option Nat) → RelaxOut
  | [], counter, dist, pred =>
    { counter := counter, dist := dist, pred := pred, pushes := [] }
  | (v, c) :: rest, counter, dist, pred =>
    let nd := d + c
    if optLtB (some nd) (dist v) then
      let out := relaxT u d rest (counter + 1)
        (updO dist v (some nd)) (updO pred v (some u))
      { out with pushes := (nd, counter + 1, v) :: out.pushes }
    else relaxT u d rest counter dist pred

/-- The `while fila:` loop of `Rede.bfs` (topologia.py lines 50-60), with
explicit fuel; `none` means the fuel ran out before the queue emptied (the
termination theorem provides a sufficient fuel for every topology). -/
def bfsGo (adj : Nat → List (Nat × Nat)) :
    Nat → Nat → List Entry → (Nat → Option Nat) → (Nat → Option Nat) →
    Option ((Nat → Option Nat) × (Nat → Option Nat))
  | 0, _, fila, dist, pred =>
    if fila.isEmpty then some (dist, pred) else none
  | Nat.succ fuel, counter, fila, dist, pred =>
    match popMin fila with
    | none => some (dist, pred)
    | some (e, rest) =>
      if distGtB e.1 (dist e.2.2) then bfsGo adj fuel counter rest dist pred
      else
        let q := relaxT e.2.2 e.1 (adj e.2.2) counter dist pred
        bfsGo adj fuel q.counter (rest ++ q.pushes) q.dist q.pred

/-- `Rede.bfs` (topologia.py lines 42-61): distances all `inf` except the
source at `0`, queue seeded with `(0, 0, source)`. -/
def Rede.bfsAux (r : Rede) (fuel s : Nat) :
    Option ((Nat → Option Nat) × (Nat → Option Nat)) :=
  bfsGo r.adjOf fuel 0 [(0, 0, s)]
    (updO (fun _ => none) s (some 0)) (fun _ => none)

/-- Address resolution of topologia.py: the comparison is against the stored
`d.ip`, which here is the full constructor string, mask included. -/
def Rede.resolve (r : Rede) (addr : String) : Option Nat :=
  R.findFirstBy Dispositivo.ip r.dispositivos addr

/-- `Rede.ping` (topologia.py lines 63-78).  The success branch evaluates
`anteriores[destino] * 10` — multiplying a `Dispositivo` by an `int` — which
raises `TypeError`; that crash is the `Except.error` case. -/
def Rede.ping (r : Rede) (fuel : Nat) (ipOrigem ipDestino : String) :
    Option (Except Unit String) :=
  match r.resolve ipOrigem, r.resolve ipDestino with
  | none, _ => some (Except.ok "Dispositivo de origem ou destino não encontrado.")
  | some _, none => some (Except.ok "Dispositivo de origem ou destino não encontrado.")
  | some o, some dd =>
    (r.bfsAux fuel o).map (fun dp =>
      match dp.2 dd with
      | none => Except.ok "Destino inalcançável!"
      | some _ => Except.error ())

/-- `Rede.traceroute` (topologia.py lines 80-96); as in rede.py the
`'Destino inalcançável!'` branch is dead because the collected list always
contains the destination. -/
def Rede.traceroute (r : Rede) (fuel : Nat) (ipOrigem ipDestino : String) :
    Option String :=
  match r.resolve ipOrigem, r.resolve ipDestino with
  | none, _ => some "Dispositivo de origem ou destino não encontrado."
  | some _, none => some "Dispositivo de origem ou destino não encontrado."
  | some o, some dd =>
    (r.bfsAux fuel o).map (fun dp =>
      let caminho := (R.tracePath dp.2 r.n dd).map
        (fun i => (r.dev i).nome ++ " (" ++ (r.dev i).ip ++ ")")
      let caminho2 := caminho.reverse
      if caminho2.isEmpty then "Destino inalcançável!" else
        String.intercalate " -> " caminho2)

/-- The walk `while anteriores[passo_atual] != dispositivo and
anteriores[passo_atual] is not None` of the table builder (topologia.py lines
200-203): returns the device whose predecessor is the router itself, when the
chain reaches one. -/
def nextHopWalk (ant : Nat → Option Nat) (disp : Nat) : Nat → Nat → Option Nat
  | 0, _ => none
  | Nat.succ f, p =>
    match ant p with
    | some q => if q = disp then some p else nextHopWalk ant disp f q
    | none => none

/-- The `for dest in self.dispositivos` table-filling loop of
`mostrar_tabelas_roteamento` (topologia.py lines 198-209), folding over the
arena indices of the devices. -/
def buildRows (r : Rede) (di : Nat) (ant : Nat → Option Nat) :
    List Nat → List (String × TEntry) → List (String × TEntry)
  | [], acc => acc
  | dest :: rest, acc =>
    let dd := r.dev dest
    if dd.subnet ≠ "" ∧ dest ≠ di then
      match nextHopWalk ant di r.n dest with
      | some p =>
        buildRows r di ant rest (upsert acc dd.subnet
          { destino := dd.nome, proximo := (r.dev p).nome,
            ipProximo := (r.dev p).ip })
      | none => buildRows r di ant rest acc
    else buildRows r di ant rest acc

/-- Store a freshly built routing table on device `i`. -/
def setTabela (r : Rede) (i : Nat) (tab : List (String × TEntry)) : Rede :=
  let ds := R.modifyIdx r.dispositivos i (fun d => { d with tabela := some tab })
  { r with dispositivos := ds }

/-- The outer loop of `mostrar_tabelas_roteamento` (topologia.py lines
191-209): for every router, run `bfs` from it, reset its table and fill it
subnet by subnet.  (The printing is presentation only.) -/
def mostrarAux (fuel : Nat) : Rede → List Nat → Option Rede
  | r, [] => some r
  | r, i :: rest =>
    if (r.dev i).tipo = "roteador" then
      match r.bfsAux fuel i with
      | none => none
      | some dp =>
        mostrarAux fuel (setTabela r i (buildRows r i dp.2 (List.range r.n) [])) rest
    else mostrarAux fuel r rest

/-- `Rede.mostrar_tabelas_roteamento`, the routing-table rebuild operation of
topologia.py. -/
def Rede.mostrarTabelas (r : Rede) (fuel : Nat) : Option Rede :=
  mostrarAux fuel r (List.range r.n)

end T

/-! ## State-passing forms of the query operations

The bodies of `ping`, `traceroute` and the shortest-path engines bind only
local names (`origem`, `destino`, `anteriores`, `caminho`, ...); no statement
assigns into `self`, a device, or any of their dictionaries.  The faithful
state-passing translation therefore returns the input topology as the final
state, which is what the frame theorem records. -/

/-- `rede.py` `ping` with its final topology state. -/
def R.Rede.pingM (r : R.Rede) (a b : String) : String × R.Rede :=
  (r.ping a b, r)

/-- `rede.py` `traceroute` with its final topology state. -/
def R.Rede.tracerouteM (r : R.Rede) (a b : String) : String × R.Rede :=
  (r.traceroute a b, r)

/-- `rede.py` `dijkstra` with its final topology state. -/
def R.Rede.dijkstraM (r : R.Rede) (s : Nat) :
    (((Nat → Option Nat) × (Nat → Option Nat)) × R.Rede) :=
  (r.dijkstra s, r)

/-- `topologia.py` `ping` with its final topology state. -/
def T.Rede.pingM (r : T.Rede) (fuel : Nat) (a b : String) :
    Option (Except Unit String) × T.Rede :=
  (r.ping fuel a b, r)

/-- `topologia.py` `traceroute` with its final topology state. -/
def T.Rede.tracerouteM (r : T.Rede) (fuel : Nat) (a b : String) :
    Option String × T.Rede :=
  (r.traceroute fuel a b, r)

/-- `topologia.py` `bfs` with its final topology state. -/
def T.Rede.bfsM (r : T.Rede) (fuel s : Nat) :
    Option ((Nat → Option Nat) × (Nat → Option Nat)) × T.Rede :=
  (r.bfsAux fuel s, r)

/-- The host part of an address string: everything before the first `'/'`
(the "host IP with no prefix" of the specification). -/
def hostPart (addr : String) : String := (splitOnC addr '/').headD ""

/-! ## Concrete topologies used by counterexamples and witnesses -/

/-- One isolated device, rede.py revision. -/
def exR1 : R.Rede := { dispositivos := [
  { nome := "a", ip := "10.0.0.1", subnet := none, tipo := "host",
    gateway := none, vizinhos := [], tabela := [] } ] }

/-- Two devices with no links at all, rede.py revision. -/
def exR2 : R.Rede := { dispositivos := [
  { nome := "a", ip := "1.1.1.1", subnet := none, tipo := "host",
    gateway := none, vizinhos := [], tabela := [] },
  { nome := "d", ip := "2.2.2.2", subnet := none, tipo := "host",
    gateway := none, vizinhos := [], tabela := [] } ] }

/-- `exR2` after `adicionar_link(a, d, 3, ...)`. -/
def exR2L : R.Rede := exR2.adicionarLink 0 1 3 "fibra" "1Gbps" "Backbone"

/-- The two-alternative-paths topology of the specification: X and Y joined
directly at cost 5 and through M at cost 1 + 2 = 3. -/
def exR53 : R.Rede :=
  ((({ dispositivos := [
    { nome := "X", ip := "10.0.0.1", subnet := none, tipo := "host",
      gateway := none, vizinhos := [], tabela := [] },
    { nome := "M", ip := "10.0.0.2", subnet := none, tipo := "host",
      gateway := none, vizinhos := [], tabela := [] },
    { nome := "Y", ip := "10.0.0.3", subnet := none, tipo := "host",
      gateway := none, vizinhos := [], tabela := [] } ] } : R.Rede)
    |>.adicionarLink 0 2 5 "fibra" "1Gbps" "caminho longo")
    |>.adicionarLink 0 1 1 "fibra" "1Gbps" "caminho curto")
    |>.adicionarLink 1 2 2 "fibra" "1Gbps" "caminho curto"

/-- One isolated device, topologia.py revision; the stored address keeps its
mask, exactly as `self.ip = ip` does. -/
def exT1 : T.Rede := { dispositivos := [
  { nome := "a", ip := "172.16.1.1/24", subnet := "172.16.1.0/24",
    tipo := "host", vizinhos := [], tabela := none } ], enlaces := [] }

/-- Two devices with no links at all, topologia.py revision. -/
def exT2 : T.Rede := { dispositivos := [
  { nome := "a", ip := "172.16.1.1/24", subnet := "172.16.1.0/24",
    tipo := "host", vizinhos := [], tabela := none },
  { nome := "d", ip := "172.16.1.2/24", subnet := "172.16.1.0/24",
    tipo := "host", vizinhos := [], tabela := none } ], enlaces := [] }

/-- `exT2` after `adicionar_link(a, d, 3, ...)`. -/
def exT2L : T.Rede := exT2.adicionarLink 0 1 3 "fibra" "1Gbps" "Backbone"

/-- A router joined to host `a`, which is joined to host `b`; the
5/3 alternative also exists between the router and `b` (direct cost 5 versus
1 + 2 = 3 through `a`), topologia.py revision. -/
def exTR : T.Rede :=
  ((({ dispositivos := [
    { nome := "r1", ip := "10.0.0.1/24", subnet := "10.0.0.0/24",
      tipo := "roteador", vizinhos := [], tabela := some [] },
    { nome := "a", ip := "10.0.1.1/24", subnet := "10.0.1.0/24",
      tipo := "host", vizinhos := [], tabela := none },
    { nome := "b", ip := "10.0.2.1/24", subnet := "10.0.2.0/24",
      tipo := "host", vizinhos := [], tabela := none } ], enlaces := [] } : T.Rede)
    |>.adicionarLink 0 2 5 "fibra" "1Gbps" "caminho longo")
    |>.adicionarLink 0 1 1 "fibra" "1Gbps" "caminho curto")
    |>.adicionarLink 1 2 2 "fibra" "1Gbps" "caminho curto"

/-- Symmetry of a neighbor-map family: whenever `y` appears in `x`'s map with
attributes `l`, `x` appears in `y`'s with the same attributes. -/
def SymmMap (viz : Nat → List (Nat × Link)) : Prop :=
  ∀ x y l, lookupC (viz x) y = some l → lookupC (viz y) x = some l

/-- Full neighbor symmetry of a rede.py topology. -/
def R.Symm (r : R.Rede) : Prop := SymmMap (fun i => (r.dev i).vizinhos)

/-- Full neighbor symmetry of a topologia.py topology. -/
def T.Symm (r : T.Rede) : Prop := SymmMap (fun i => (r.dev i).vizinhos)

/-- What claim C1 asserts of a predecessor map: `none` exactly for the source
and the unreachable devices, and for every reachable device the path
reconstructed through predecessors is a walk from the source whose cost is
the least cost of any walk there. -/
def PredOK (adj : Nat → List (Nat × Nat)) (n s : Nat)
    (pred : Nat → Option Nat) : Prop :=
  (∀ v, v < n → (pred v = none ↔ v = s ∨ ¬ Reachable adj s v)) ∧
  (∀ v, v < n → Reachable adj s v →
    ∃ t d, predChain pred n v = s :: t ∧ endV s t = v ∧
      walkCost adj s t = some d ∧ IsMinCost adj s v d)

/-- Position of `x` in a settled-order list (first occurrence). -/
def idxOf : List Nat → Nat → Nat
  | [], _ => 0
  | a :: t, x => if a = x then 0 else idxOf t x + 1

/-- Loop invariant of `Rede.dijkstra` between iterations: `vis` is the list of
settled devices in settle order, `unvisited` the remaining ones.  Settled
distances are lower bounds on every walk (`lb`), all edges out of settled
devices are relaxed (`rlx`), finite distances are attained (`snd`), and
predecessor links point from a settled device with the recorded cost
(`link`), earlier in settle order (`rankv`). -/
structure DInv (adj : Nat → List (Nat × Nat)) (n s : Nat)
    (vis unvisited : List Nat) (dist pred : Nat → Option Nat) : Prop where
  cover : ∀ v, v < n ↔ (v ∈ vis ∨ v ∈ unvisited)
  disj : ∀ v, v ∈ vis → v ∈ unvisited → False
  nodupU : unvisited.Nodup
  dist_s : dist s = some 0
  pred_s : pred s = none
  snd : ∀ v d, dist v = some d → ReachesC adj s v d
  pnone : ∀ v, v < n → pred v = none → v = s ∨ dist v = none
  lb : ∀ v, v ∈ vis → ∀ c, ReachesC adj s v c → ∃ dv, dist v = some dv ∧ dv ≤ c
  rlx : ∀ u, u ∈ vis → ∀ vc, vc ∈ adj u →
    optLtB (optAdd (dist u) vc.2) (dist vc.1) = false
  link : ∀ v u, pred v = some u → u ∈ vis ∧ v < n ∧ v ≠ s ∧
    ∃ c du, lookupC (adj u) v = some c ∧ dist u = some du ∧
      dist v = some (du + c)
  rankv : ∀ v u, pred v = some u → v ∈ vis → idxOf vis u < idxOf vis v

/-- The invariant holding while the relaxation loop of one `dijkstra` pass
runs: like `DInv` with `atual` already settled, except that relaxedness of
`atual`'s own edges is established separately, edge by edge. -/
structure MidInv (adj : Nat → List (Nat × Nat)) (n s atual : Nat)
    (vis unvisited : List Nat) (dist pred : Nat → Option Nat) : Prop where
  cover : ∀ v, v < n ↔ (v ∈ vis ∨ v ∈ unvisited)
  disj : ∀ v, v ∈ vis → v ∈ unvisited → False
  nodupU : unvisited.Nodup
  dist_s : dist s = some 0
  pred_s : pred s = none
  snd : ∀ v d, dist v = some d → ReachesC adj s v d
  pnone : ∀ v, v < n → pred v = none → v = s ∨ dist v = none
  lb : ∀ v, v ∈ vis → ∀ c, ReachesC adj s v c → ∃ dv, dist v = some dv ∧ dv ≤ c
  rlx : ∀ u, u ∈ vis → u ≠ atual → ∀ vc, vc ∈ adj u →
    optLtB (optAdd (dist u) vc.2) (dist vc.1) = false
  link : ∀ v u, pred v = some u → u ∈ vis ∧ v < n ∧ v ≠ s ∧
    ∃ c du, lookupC (adj u) v = some c ∧ dist u = some du ∧
      dist v = some (du + c)
  rankv : ∀ v u, pred v = some u → v ∈ vis → idxOf vis u < idxOf vis v

/-- Loop invariant of `Rede.bfs` between queue pops.  Every queued entry
names an in-range device whose current distance is at most the entry key
(`key`, `dev`); every edge is either already relaxed or its source has a
queue entry at most its current distance (`cov`); predecessor links record an
edge whose relaxation can only have become slack (`link`); and a ghost
time-stamp orders predecessor links by `(distance, last assignment)`
(`tord`), which keeps the predecessor graph acyclic. -/
structure BInv (adj : Nat → List (Nat × Nat)) (n s : Nat)
    (dist pred : Nat → Option Nat) (fila : List T.Entry) : Prop where
  dist_s : dist s = some 0
  pred_s : pred s = none
  snd : ∀ v d, dist v = some d → ReachesC adj s v d
  pnone : ∀ v, v < n → pred v = none → v = s ∨ dist v = none
  dev : ∀ e, e ∈ fila → e.2.2 < n
  key : ∀ e, e ∈ fila → ∃ x, dist e.2.2 = some x ∧ x ≤ e.1
  cov : ∀ u, u < n → ∀ vc, vc ∈ adj u →
    optLtB (optAdd (dist u) vc.2) (dist vc.1) = false ∨
    ∃ e, e ∈ fila ∧ e.2.2 = u ∧ ∀ x, dist u = some x → e.1 ≤ x
  link : ∀ v u, pred v = some u → u < n ∧ v < n ∧ v ≠ s ∧
    ∃ c, lookupC (adj u) v = some c ∧ (∃ dv, dist v = some dv) ∧
      (∀ du dv, dist u = some du → dist v = some dv → du + c ≤ dv) ∧
      dist u ≠ none
  tord : ∃ (tm : Nat → Nat) (now : Nat), (∀ x, tm x < now) ∧
    ∀ v u, pred v = some u → ∀ du dv, dist u = some du → dist v = some dv →
      (du < dv ∨ (du = dv ∧ tm u < tm v))

/-- `BInv` while the relaxation loop of one pop of `u` runs: the edges of `u`
still in `rem` are exempt from the relaxed-or-covered alternative. -/
structure BMid (adj : Nat → List (Nat × Nat)) (n s u : Nat)
    (dist pred : Nat → Option Nat) (fila : List T.Entry)
    (rem : List (Nat × Nat)) : Prop where
  dist_s : dist s = some 0
  pred_s : pred s = none
  snd : ∀ v d, dist v = some d → ReachesC adj s v d
  pnone : ∀ v, v < n → pred v = none → v = s ∨ dist v = none
  dev : ∀ e, e ∈ fila → e.2.2 < n
  key : ∀ e, e ∈ fila → ∃ x, dist e.2.2 = some x ∧ x ≤ e.1
  cov : ∀ u2, u2 < n → ∀ vc, vc ∈ adj u2 → ¬(u2 = u ∧ vc ∈ rem) →
    optLtB (optAdd (dist u2) vc.2) (dist vc.1) = false ∨
    ∃ e, e ∈ fila ∧ e.2.2 = u2 ∧ ∀ x, dist u2 = some x → e.1 ≤ x
  link : ∀ v u2, pred v = some u2 → u2 < n ∧ v < n ∧ v ≠ s ∧
    ∃ c, lookupC (adj u2) v = some c ∧ (∃ dv, dist v = some dv) ∧
      (∀ du dv, dist u2 = some du → dist v = some dv → du + c ≤ dv) ∧
      dist u2 ≠ none
  tord : ∃ (tm : Nat → Nat) (now : Nat), (∀ x, tm x < now) ∧
    ∀ v u2, pred v = some u2 → ∀ du dv, dist u2 = some du → dist v = some dv →
      (du < dv ∨ (du = dv ∧ tm u2 < tm v))

/-- Number of devices still at infinite tentative distance. -/
def cntNone (n : Nat) (dist : Nat → Option Nat) : Nat :=
  ((Finset.range n).filter (fun v => dist v = none)).card

/-- Sum of the finite tentative distances. -/
def sumFin (n : Nat) (dist : Nat → Option Nat) : Nat :=
  Finset.sum (Finset.range n) (fun v => (dist v).getD 0)

/-- The `while anteriores[passo_atual] != dispositivo:` walk of rede.py's
`construir_tabelas_roteamento` (lines 77-79).  The loop has no
`is not None` escape: a `None` predecessor makes the next dict access raise
(`anteriores[None]`), embedded as the `none` result. -/
def R.nextHopWalk (ant : Nat → Option Nat) (disp : Nat) : Nat → Nat → Option Nat
  | 0, _ => none
  | Nat.succ f, p =>
    match ant p with
    | some q => if q = disp then some p else R.nextHopWalk ant disp f q
    | none => none

/-- The `for destino in self.dispositivos` filling loop of
`construir_tabelas_roteamento` (rede.py lines 75-81): guarded by
`destino != dispositivo and anteriores[destino]` (a `Dispositivo` is always
truthy, so the guard is a `None` test), the entry keyed by the destination's
stored ip holds the next hop's stored ip, written into the router's current
table; a crash of the walk aborts the whole construction. -/
def R.buildRows (r : R.Rede) (di : Nat) (ant : Nat → Option Nat) :
    List Nat → List (String × String) → Option (List (String × String))
  | [], acc => some acc
  | dest :: rest, acc =>
    if dest ≠ di ∧ (ant dest).isSome then
      match R.nextHopWalk ant di r.n dest with
      | some p => R.buildRows r di ant rest
          (upsert acc (r.dev dest).ip (r.dev p).ip)
      | none => none
    else R.buildRows r di ant rest acc

/-- Store a routing table on device `i` of a rede.py topology (the net effect
of the per-entry dict writes). -/
def R.setTabela (r : R.Rede) (i : Nat) (tab : List (String × String)) :
    R.Rede :=
  { dispositivos := R.modifyIdx r.dispositivos i
      (fun d => { d with tabela := tab }) }

/-- The outer `for dispositivo in self.dispositivos` loop of
`construir_tabelas_roteamento` (rede.py lines 70-81): for every router, run
`dijkstra` from it and extend its table destination by destination (the
table is never reset). -/
def R.construirAux : R.Rede → List Nat → Option R.Rede
  | r, [] => some r
  | r, i :: rest =>
    if (r.dev i).tipo = "roteador" then
      match R.buildRows r i (r.dijkstra i).2 (List.range r.n)
          (r.dev i).tabela with
      | none => none
      | some tab => R.construirAux (R.setTabela r i tab) rest
    else R.construirAux r rest

/-- `Rede.construir_tabelas_roteamento`, the routing-table rebuild operation
of rede.py (lines 70-82). -/
def R.Rede.construirTabelas (r : R.Rede) : Option R.Rede :=
  R.construirAux r (List.range r.n)

/-- `Dispositivo.__init__` of topologia.py (lines 8-19), the external
`ip_interface` collaborator abstracted as `parse` (the string of
`.network`, or the `ValueError` it raises).  The parse is unconditional —
`self.subnet = str(ip_interface(ip).network)` — so its failure propagates
out of the constructor; the routing table starts `\x7b\x7d` for routers and
`None` otherwise. -/
def T.mkDispositivo (parse : String → Except Unit String)
    (nome ip tipo : String) : Except Unit T.Dispositivo :=
  match parse ip with
  | Except.error e => Except.error e
  | Except.ok sn =>
    Except.ok { nome := nome, ip := ip, subnet := sn, tipo := tipo,
                vizinhos := [],
                tabela := if tipo = "roteador" then some [] else none }

/-- The router-and-two-hosts diamond of `exTR`, rede.py revision: direct
cost 5 between the router and `b` against 1 + 2 through `a`. -/
def exRT : R.Rede :=
  ((({ dispositivos := [
    { nome := "r1", ip := "10.0.0.1", subnet := some "10.0.0.0/24",
      tipo := "roteador", gateway := none, vizinhos := [], tabela := [] },
    { nome := "a", ip := "10.0.1.1", subnet := some "10.0.1.0/24",
      tipo := "host", gateway := none, vizinhos := [], tabela := [] },
    { nome := "b", ip := "10.0.2.1", subnet := some "10.0.2.0/24",
      tipo := "host", gateway := none, vizinhos := [], tabela := [] } ] } :
      R.Rede)
    |>.adicionarLink 0 2 5 "fibra" "1Gbps" "caminho longo")
    |>.adicionarLink 0 1 1 "fibra" "1Gbps" "caminho curto")
    |>.adicionarLink 1 2 2 "fibra" "1Gbps" "caminho curto"

/-! ## Theorems -/

/-! ### Helper lemmas: maps, association lists, arena updates -/

theorem updO_self {α : Type} (m : Nat → α) (k : Nat) (v : α) : updO m k v k = v := by
  simp [updO]

theorem updO_ne {α : Type} (m : Nat → α) {k x : Nat} (v : α) (h : x ≠ k) :
    updO m k v x = m x := by
  simp [updO, h]

theorem lookupC_upsert_self {κ β : Type} [DecidableEq κ] (l : List (κ × β))
    (k : κ) (v : β) : lookupC (upsert l k v) k = some v := by
  induction l with
  | nil => simp [upsert, lookupC]
  | cons p t ih =>
    obtain ⟨k1, v1⟩ := p
    by_cases h : k1 = k
    · simp [upsert, h, lookupC]
    · simp [upsert, h, lookupC, ih]

theorem lookupC_upsert_ne {κ β : Type} [DecidableEq κ] (l : List (κ × β))
    {k k2 : κ} (v : β) (h : k2 ≠ k) :
    lookupC (upsert l k v) k2 = lookupC l k2 := by
  induction l with
  | nil => simp [upsert, lookupC, Ne.symm h]
  | cons p t ih =>
    obtain ⟨k1, v1⟩ := p
    by_cases hk : k1 = k
    · subst hk
      simp [upsert, lookupC, Ne.symm h]
    · simp [upsert, hk, lookupC, ih]

theorem mem_of_lookupC {κ β : Type} [DecidableEq κ] {l : List (κ × β)} {k : κ}
    {v : β} (h : lookupC l k = some v) : (k, v) ∈ l := by
  induction l with
  | nil => simp [lookupC] at h
  | cons p t ih =>
    obtain ⟨k1, v1⟩ := p
    by_cases hk : k1 = k
    · subst hk
      simp [lookupC] at h
      simp [h]
    · simp [lookupC, hk] at h
      exact List.mem_cons_of_mem _ (ih h)

theorem lookupC_of_mem_nodup {κ β : Type} [DecidableEq κ] {l : List (κ × β)}
    {k : κ} {v : β} (hm : (k, v) ∈ l) (hn : (l.map Prod.fst).Nodup) :
    lookupC l k = some v := by
  induction l with
  | nil => simp at hm
  | cons p t ih =>
    obtain ⟨k1, v1⟩ := p
    rcases List.mem_cons.mp hm with h | h
    · injection h with h1 h2
      subst h1
      subst h2
      simp [lookupC]
    · have hk : k1 ≠ k := by
        rintro rfl
        exact (List.nodup_cons.mp hn).1 (List.mem_map.mpr ⟨(k1, v), h, rfl⟩)
      simp [lookupC, hk]
      exact ih h (List.nodup_cons.mp hn).2

theorem modifyIdx_length {α : Type} (l : List α) (i : Nat) (f : α → α) :
    (R.modifyIdx l i f).length = l.length := by
  induction l generalizing i with
  | nil => simp [R.modifyIdx]
  | cons a t ih =>
    cases i with
    | zero => simp [R.modifyIdx]
    | succ k => simp [R.modifyIdx, ih]

theorem modifyIdx_get_self {α : Type} (l : List α) (i : Nat) (f : α → α) :
    (R.modifyIdx l i f)[i]? = (l[i]?).map f := by
  induction l generalizing i with
  | nil => simp [R.modifyIdx]
  | cons a t ih =>
    cases i with
    | zero => simp [R.modifyIdx]
    | succ k => simp [R.modifyIdx, ih]

theorem modifyIdx_get_ne {α : Type} (l : List α) {i j : Nat} (f : α → α)
    (h : j ≠ i) : (R.modifyIdx l i f)[j]? = l[j]? := by
  induction l generalizing i j with
  | nil => simp [R.modifyIdx]
  | cons a t ih =>
    cases i with
    | zero =>
      cases j with
      | zero => exact absurd rfl h
      | succ m => simp [R.modifyIdx]
    | succ k =>
      cases j with
      | zero => simp [R.modifyIdx]
      | succ m =>
        simp only [R.modifyIdx, List.getElem?_cons_succ]
        exact ih (fun hh => h (by rw [hh]))

theorem findFirstBy_none_iff {α : Type} (ipOf : α → String) (l : List α)
    (addr : String) :
    R.findFirstBy ipOf l addr = none ↔ ∀ d ∈ l, ipOf d ≠ addr := by
  induction l with
  | nil => simp [R.findFirstBy]
  | cons a t ih =>
    by_cases h : ipOf a = addr
    · simp [R.findFirstBy, h]
    · simp [R.findFirstBy, h, ih]

theorem findFirstBy_some_spec {α : Type} (ipOf : α → String) (l : List α)
    (addr : String) (i : Nat) :
    R.findFirstBy ipOf l addr = some i →
      (∃ d, l[i]? = some d ∧ ipOf d = addr) ∧
        ∀ j, j < i → ∀ d, l[j]? = some d → ipOf d ≠ addr := by
  induction l generalizing i with
  | nil => simp [R.findFirstBy]
  | cons a t ih =>
    intro hf
    by_cases h : ipOf a = addr
    · simp [R.findFirstBy, h] at hf
      subst hf
      refine ⟨⟨a, by simp, h⟩, ?_⟩
      intro j hj
      omega
    · simp [R.findFirstBy, h] at hf
      obtain ⟨k, hk, rfl⟩ := hf
      obtain ⟨h2, h3⟩ := ih k hk
      refine ⟨?_, ?_⟩
      · obtain ⟨d, hd, hda⟩ := h2
        exact ⟨d, by simpa using hd, hda⟩
      · intro j hj d hd
        cases j with
        | zero =>
          simp at hd
          subst hd
          exact h
        | succ m =>
          simp at hd
          exact h3 m (by omega) d hd

/-! ### Claims settled by direct evaluation -/

/-- C2: the specification requires `Unreachable` when the destination is
unreachable and distinct from the source, but both revisions of `traceroute`
return the one-element path consisting of the destination alone: the
collected list is never empty, so the `Destino inalcançável` branch is dead
code.  Evaluated on two devices with no links at all. -/
theorem claim2_traceroute_unreachable_bug :
    exR2.traceroute "1.1.1.1" "2.2.2.2" = "d (2.2.2.2)" ∧
    exR2.traceroute "1.1.1.1" "2.2.2.2" ≠ "Destino inalcançável." ∧
    exT2.traceroute 10 "172.16.1.1/24" "172.16.1.2/24" =
      some "d (172.16.1.2/24)" ∧
    exT2.traceroute 10 "172.16.1.1/24" "172.16.1.2/24" ≠
      some "Destino inalcançável!" := by
  refine ⟨rfl, by decide, rfl, by decide⟩

/-- C3: pinging a device's own address reports `Destino inalcançável` in both
revisions, because the predecessor of the source is `None` and the success
test is `anteriores[destino] is not None`; the specification requires
`Success` with zero hops and zero latency. -/
theorem claim3_self_ping_bug :
    exR1.ping "10.0.0.1" "10.0.0.1" =
      "Ping de 10.0.0.1 para 10.0.0.1 falhou. Destino inalcançável." ∧
    exT1.ping 10 "172.16.1.1/24" "172.16.1.1/24" =
      some (Except.ok "Destino inalcançável!") := by
  refine ⟨rfl, rfl⟩

/-- C4: on a reachable destination, topologia.py's `ping` evaluates
`anteriores[destino] * 10` — the predecessor `Dispositivo` times an `int` —
which raises `TypeError` instead of reporting hop count times the fixed
latency; rede.py's success message carries no latency figure at all.
Evaluated on two directly linked devices. -/
theorem claim4_ping_latency_bug :
    exT2L.ping 10 "172.16.1.1/24" "172.16.1.2/24" = some (Except.error ()) ∧
    exR2L.ping "1.1.1.1" "2.2.2.2" =
      "Ping de 1.1.1.1 para 2.2.2.2 bem-sucedido." := by
  refine ⟨rfl, rfl⟩

/-- C5 counterexample: in the topologia.py revision the stored address keeps
its mask (`self.ip = ip`), so an argument equal to the device's host IP with
no prefix does not resolve: `ping` answers `DeviceNotFound` even though the
device is present and the argument equals its host IP. -/
theorem claim5_counterexample :
    hostPart (T.Rede.dev exT1 0).ip = "172.16.1.1" ∧
    exT1.resolve "172.16.1.1" = none ∧
    exT1.ping 10 "172.16.1.1" "172.16.1.1/24" =
      some (Except.ok "Dispositivo de origem ou destino não encontrado.") := by
  refine ⟨rfl, rfl, rfl⟩

/-- C5 as amended: resolution is a linear first-match scan comparing the
argument with each device's stored address string — which in rede.py is the
host IP without prefix, but in topologia.py is the full constructor string —
and a failed resolution yields the `DeviceNotFound` message as a normal
return value. -/
theorem claim5_resolution_amended :
    (∀ (r : R.Rede) (addr : String) (i : Nat), r.resolve addr = some i →
        (∃ d, r.dispositivos[i]? = some d ∧ d.ip = addr) ∧
        ∀ j, j < i → ∀ d, r.dispositivos[j]? = some d → d.ip ≠ addr) ∧
    (∀ (r : T.Rede) (addr : String) (i : Nat), r.resolve addr = some i →
        (∃ d, r.dispositivos[i]? = some d ∧ d.ip = addr) ∧
        ∀ j, j < i → ∀ d, r.dispositivos[j]? = some d → d.ip ≠ addr) ∧
    (∀ (r : R.Rede) (addr : String), r.resolve addr = none ↔
        ∀ d ∈ r.dispositivos, d.ip ≠ addr) ∧
    (∀ (r : R.Rede) (a b : String), r.resolve a = none ∨ r.resolve b = none →
        r.ping a b = "Dispositivo de origem ou destino não encontrado.") ∧
    (∀ (r : T.Rede) (fuel : Nat) (a b : String),
        r.resolve a = none ∨ r.resolve b = none →
        r.ping fuel a b =
          some (Except.ok "Dispositivo de origem ou destino não encontrado.")) ∧
    (∀ nome raw tipo gw sub d, R.mkDispositivo nome raw tipo gw sub = Except.ok d →
        d.ip = hostPart raw) := by
  refine ⟨?_, ?_, ?_, ?_, ?_, ?_⟩
  · intro r addr i h
    exact findFirstBy_some_spec _ _ _ _ h
  · intro r addr i h
    exact findFirstBy_some_spec _ _ _ _ h
  · intro r addr
    exact findFirstBy_none_iff _ _ _
  · intro r a b h
    unfold R.Rede.ping
    rcases h with h | h
    · rw [h]
    · rw [h]
      cases r.resolve a <;> rfl
  · intro r fuel a b h
    unfold T.Rede.ping
    rcases h with h | h
    · rw [h]
    · rw [h]
      cases r.resolve a <;> rfl
  · intro nome raw tipo gw sub d h
    unfold R.mkDispositivo at h
    dsimp only at h
    split at h
    · exact absurd h (by simp)
    · injection h with h2
      subst h2
      rfl

/-- C5 witness: instantiating the first-match description on a concrete
topology and address. -/
theorem claim5_resolution_amended_witness :
    (∃ d, exR2.dispositivos[1]? = some d ∧ d.ip = "2.2.2.2") ∧
      ∀ j, j < 1 → ∀ d, exR2.dispositivos[j]? = some d → d.ip ≠ "2.2.2.2" :=
  claim5_resolution_amended.1 exR2 "2.2.2.2" 1 (by decide)

/-- C8 counterexample: constructing a rede.py `Dispositivo` whose address
contains two slashes raises `ValueError` inside `calcular_subnet`
(`ip_part, mask = ip.split('/')` with three pieces), so construction does
not always succeed. -/
theorem claim8_counterexample :
    R.mkDispositivo "x" "1.2.3.4/24/5" "host" none none = Except.error () := rfl

/-- rede.py construction succeeds whenever the address contains at most one
`'/'`; with no explicit subnet and no `'/'` at all, the subnet is left
undefined (`None`) and construction still completes normally. -/
theorem mkDispositivoR_ok :
    ∀ nome raw tipo gw,
      (splitOnC raw '/').length = 1 ∨ (splitOnC raw '/').length = 2 →
      ∃ d, R.mkDispositivo nome raw tipo gw none = Except.ok d ∧
        ((splitOnC raw '/').length = 1 → d.subnet = none) := by
  intro nome raw tipo gw h
  rcases h with h | h
  · have hc : R.calcularSubnet raw = Except.ok none := by
      unfold R.calcularSubnet
      rw [if_pos h]
    refine ⟨{ nome := nome, ip := (splitOnC raw '/').headD "", subnet := none,
              tipo := tipo, gateway := gw, vizinhos := [], tabela := [] }, ?_, fun _ => rfl⟩
    unfold R.mkDispositivo
    dsimp only
    rw [hc]
  · have h1 : (splitOnC raw '/').length ≠ 1 := by omega
    have hc : R.calcularSubnet raw = Except.ok (some
        (String.intercalate "." (((splitOnC ((splitOnC raw '/').headD "") '.').dropLast)
          ++ ["0"]) ++ "/" ++ (((splitOnC raw '/').getLast?).getD ""))) := by
      unfold R.calcularSubnet
      rw [if_neg h1, if_pos h]
    refine ⟨{ nome := nome, ip := (splitOnC raw '/').headD "",
              subnet := some (String.intercalate "."
                (((splitOnC ((splitOnC raw '/').headD "") '.').dropLast) ++ ["0"])
                ++ "/" ++ (((splitOnC raw '/').getLast?).getD "")),
              tipo := tipo, gateway := gw, vizinhos := [], tabela := [] },
            ?_, fun hh => absurd hh h1⟩
    unfold R.mkDispositivo
    dsimp only
    rw [hc]

/-- C10: `ping`, `traceroute` and the shortest-path engines of both revisions
bind only local state; their state-passing forms leave the topology — device
list, neighbor maps, link log, routing tables — exactly as given. -/
theorem claim10_queries_pure :
    (∀ (r : T.Rede) (fuel : Nat) (a b : String), (r.pingM fuel a b).2 = r) ∧
    (∀ (r : T.Rede) (fuel : Nat) (a b : String), (r.tracerouteM fuel a b).2 = r) ∧
    (∀ (r : R.Rede) (a b : String), (r.pingM a b).2 = r) ∧
    (∀ (r : R.Rede) (a b : String), (r.tracerouteM a b).2 = r) ∧
    (∀ (r : R.Rede) (s : Nat), (r.dijkstraM s).2 = r) ∧
    (∀ (r : T.Rede) (fuel s : Nat), (r.bfsM fuel s).2 = r) :=
  ⟨fun _ _ _ _ => rfl, fun _ _ _ _ => rfl, fun _ _ _ => rfl,
   fun _ _ _ => rfl, fun _ _ => rfl, fun _ _ _ => rfl⟩

/-! ### C7: symmetry of `adicionar_link` -/

theorem symmMap_addlink {viz : Nat → List (Nat × Link)} (i j : Nat) (l : Link)
    (hs : SymmMap viz) :
    SymmMap (fun x =>
      if x = j then
        (if j = i then upsert (upsert (viz x) j l) i l else upsert (viz x) i l)
      else if x = i then upsert (viz x) j l
      else viz x) := by
  intro x y l0 h
  dsimp only at h ⊢
  by_cases hij : j = i
  · subst hij
    by_cases hxj : x = j
    · subst hxj
      rw [if_pos rfl, if_pos rfl] at h
      by_cases hyx : y = x
      · subst hyx
        rw [lookupC_upsert_self] at h
        injection h with h
        subst h
        rw [if_pos rfl, if_pos rfl, lookupC_upsert_self]
      · rw [lookupC_upsert_ne _ _ hyx, lookupC_upsert_ne _ _ hyx] at h
        have h2 := hs x y l0 h
        rw [if_neg hyx, if_neg hyx]
        exact h2
    · rw [if_neg hxj, if_neg hxj] at h
      have h2 := hs x y l0 h
      by_cases hyj : y = j
      · subst hyj
        rw [if_pos rfl, if_pos rfl,
          lookupC_upsert_ne _ _ hxj, lookupC_upsert_ne _ _ hxj]
        exact h2
      · rw [if_neg hyj, if_neg hyj]
        exact h2
  · by_cases hxj : x = j
    · subst hxj
      rw [if_pos rfl, if_neg hij] at h
      by_cases hyi : y = i
      · subst hyi
        rw [lookupC_upsert_self] at h
        injection h with h
        subst h
        have hyj : ¬ y = x := fun hh => hij hh.symm
        rw [if_neg hyj, if_pos rfl, lookupC_upsert_self]
      · rw [lookupC_upsert_ne _ _ hyi] at h
        have h2 := hs x y l0 h
        by_cases hyj : y = x
        · subst hyj
          rw [if_pos rfl, if_neg hij, lookupC_upsert_ne _ _ hyi]
          exact h2
        · rw [if_neg hyj]
          by_cases hyi2 : y = i
          · exact absurd hyi2 hyi
          · rw [if_neg hyi2]
            exact h2
    · by_cases hxi : x = i
      · subst hxi
        rw [if_neg hxj, if_pos rfl] at h
        by_cases hyj : y = j
        · subst hyj
          rw [lookupC_upsert_self] at h
          injection h with h
          subst h
          rw [if_pos rfl, if_neg hij, lookupC_upsert_self]
        · rw [lookupC_upsert_ne _ _ hyj] at h
          have h2 := hs x y l0 h
          by_cases hyi : y = x
          · subst hyi
            rw [if_neg hyj, if_pos rfl, lookupC_upsert_ne _ _ hyj]
            exact h2
          · rw [if_neg hyj, if_neg hyi]
            exact h2
      · rw [if_neg hxj, if_neg hxi] at h
        have h2 := hs x y l0 h
        by_cases hyj : y = j
        · subst hyj
          rw [if_pos rfl, if_neg hij, lookupC_upsert_ne _ _ hxi]
          exact h2
        · by_cases hyi : y = i
          · subst hyi
            rw [if_neg hyj, if_pos rfl, lookupC_upsert_ne _ _ hxj]
            exact h2
          · rw [if_neg hyj, if_neg hyi]
            exact h2

theorem symmMap_congr {v1 v2 : Nat → List (Nat × Link)} (h : ∀ x, v1 x = v2 x) :
    SymmMap v1 → SymmMap v2 := by
  intro hs x y l hl
  rw [← h y]
  refine hs x y l ?_
  rw [h x]
  exact hl

theorem adicionarLink_vizinhos_R (r : R.Rede) (i j custo : Nat)
    (e cap just : String) (hi : i < r.n) (hj : j < r.n) (x : Nat) :
    ((r.adicionarLink i j custo e cap just).dev x).vizinhos =
      (if x = j then
        (if j = i then
          upsert (upsert ((r.dev x).vizinhos) j ⟨custo, e, cap, just⟩) i
            ⟨custo, e, cap, just⟩
         else upsert ((r.dev x).vizinhos) i ⟨custo, e, cap, just⟩)
       else if x = i then upsert ((r.dev x).vizinhos) j ⟨custo, e, cap, just⟩
       else (r.dev x).vizinhos) := by
  have hj' : j < r.dispositivos.length := hj
  have hi' : i < r.dispositivos.length := hi
  unfold R.Rede.adicionarLink R.Rede.dev R.Dispositivo.adicionarVizinho
  dsimp only
  by_cases hxj : x = j
  · rw [hxj, if_pos rfl, modifyIdx_get_self]
    by_cases hji : j = i
    · rw [if_pos hji, ← hji, modifyIdx_get_self, List.getElem?_eq_getElem hj']
      simp
    · rw [if_neg hji, modifyIdx_get_ne _ _ (fun hh => hji hh),
        List.getElem?_eq_getElem hj']
      simp
  · rw [if_neg hxj, modifyIdx_get_ne _ _ hxj]
    by_cases hxi : x = i
    · rw [hxi, if_pos rfl, modifyIdx_get_self, List.getElem?_eq_getElem hi']
      simp
    · rw [if_neg hxi, modifyIdx_get_ne _ _ hxi]

theorem adicionarLink_vizinhos_T (r : T.Rede) (i j custo : Nat)
    (e cap just : String) (hi : i < r.n) (hj : j < r.n) (x : Nat) :
    ((r.adicionarLink i j custo e cap just).dev x).vizinhos =
      (if x = j then
        (if j = i then
          upsert (upsert ((r.dev x).vizinhos) j ⟨custo, e, cap, just⟩) i
            ⟨custo, e, cap, just⟩
         else upsert ((r.dev x).vizinhos) i ⟨custo, e, cap, just⟩)
       else if x = i then upsert ((r.dev x).vizinhos) j ⟨custo, e, cap, just⟩
       else (r.dev x).vizinhos) := by
  have hj' : j < r.dispositivos.length := hj
  have hi' : i < r.dispositivos.length := hi
  unfold T.Rede.adicionarLink T.Rede.dev T.Dispositivo.adicionarVizinho
  dsimp only
  by_cases hxj : x = j
  · rw [hxj, if_pos rfl, modifyIdx_get_self]
    by_cases hji : j = i
    · rw [if_pos hji, ← hji, modifyIdx_get_self, List.getElem?_eq_getElem hj']
      simp
    · rw [if_neg hji, modifyIdx_get_ne _ _ (fun hh => hji hh),
        List.getElem?_eq_getElem hj']
      simp
  · rw [if_neg hxj, modifyIdx_get_ne _ _ hxj]
    by_cases hxi : x = i
    · rw [hxi, if_pos rfl, modifyIdx_get_self, List.getElem?_eq_getElem hi']
      simp
    · rw [if_neg hxi, modifyIdx_get_ne _ _ hxi]

/-- C7: after `adicionar_link(A, B, custo, enlace, ...)` each endpoint holds
the other as neighbor with the identical attribute tuple, and full neighbor
symmetry of the topology is preserved — in both revisions. -/
theorem claim7_addlink_symmetry :
    (∀ (r : R.Rede) (i j custo : Nat) (e cap just : String),
      i < r.n → j < r.n →
      lookupC ((r.adicionarLink i j custo e cap just).dev i).vizinhos j =
        some ⟨custo, e, cap, just⟩ ∧
      lookupC ((r.adicionarLink i j custo e cap just).dev j).vizinhos i =
        some ⟨custo, e, cap, just⟩) ∧
    (∀ (r : T.Rede) (i j custo : Nat) (e cap just : String),
      i < r.n → j < r.n →
      lookupC ((r.adicionarLink i j custo e cap just).dev i).vizinhos j =
        some ⟨custo, e, cap, just⟩ ∧
      lookupC ((r.adicionarLink i j custo e cap just).dev j).vizinhos i =
        some ⟨custo, e, cap, just⟩) ∧
    (∀ (r : R.Rede) (i j custo : Nat) (e cap just : String),
      i < r.n → j < r.n → R.Symm r →
      R.Symm (r.adicionarLink i j custo e cap just)) ∧
    (∀ (r : T.Rede) (i j custo : Nat) (e cap just : String),
      i < r.n → j < r.n → T.Symm r →
      T.Symm (r.adicionarLink i j custo e cap just)) := by
  refine ⟨?_, ?_, ?_, ?_⟩
  · intro r i j custo e cap just hi hj
    constructor
    · rw [adicionarLink_vizinhos_R r i j custo e cap just hi hj i]
      by_cases hij : i = j
      · subst hij
        rw [if_pos rfl, if_pos rfl, lookupC_upsert_self]
      · rw [if_neg hij, if_pos rfl, lookupC_upsert_self]
    · rw [adicionarLink_vizinhos_R r i j custo e cap just hi hj j]
      by_cases hij : j = i
      · subst hij
        rw [if_pos rfl, if_pos rfl, lookupC_upsert_self]
      · rw [if_pos rfl, if_neg hij, lookupC_upsert_self]
  · intro r i j custo e cap just hi hj
    constructor
    · rw [adicionarLink_vizinhos_T r i j custo e cap just hi hj i]
      by_cases hij : i = j
      · subst hij
        rw [if_pos rfl, if_pos rfl, lookupC_upsert_self]
      · rw [if_neg hij, if_pos rfl, lookupC_upsert_self]
    · rw [adicionarLink_vizinhos_T r i j custo e cap just hi hj j]
      by_cases hij : j = i
      · subst hij
        rw [if_pos rfl, if_pos rfl, lookupC_upsert_self]
      · rw [if_pos rfl, if_neg hij, lookupC_upsert_self]
  · intro r i j custo e cap just hi hj hs
    exact symmMap_congr
      (fun x => (adicionarLink_vizinhos_R r i j custo e cap just hi hj x).symm)
      (symmMap_addlink i j ⟨custo, e, cap, just⟩ hs)
  · intro r i j custo e cap just hi hj hs
    exact symmMap_congr
      (fun x => (adicionarLink_vizinhos_T r i j custo e cap just hi hj x).symm)
      (symmMap_addlink i j ⟨custo, e, cap, just⟩ hs)

/-- C7 witness: a concrete `adicionar_link` call on the two-device topology. -/
theorem claim7_addlink_symmetry_witness :
    lookupC ((exR2.adicionarLink 0 1 3 "fibra" "1Gbps" "Backbone").dev 0).vizinhos 1 =
      some ⟨3, "fibra", "1Gbps", "Backbone"⟩ ∧
    lookupC ((exR2.adicionarLink 0 1 3 "fibra" "1Gbps" "Backbone").dev 1).vizinhos 0 =
      some ⟨3, "fibra", "1Gbps", "Backbone"⟩ :=
  claim7_addlink_symmetry.1 exR2 0 1 3 "fibra" "1Gbps" "Backbone"
    (by decide) (by decide)

/-! ### From `SPOut` to shortest-path optimality -/

theorem le_of_optLtB_false {x : Option Nat} {a : Nat}
    (h : optLtB (some a) x = false) : ∃ b, x = some b ∧ b ≤ a := by
  cases x with
  | none => simp [optLtB] at h
  | some b =>
    refine ⟨b, rfl, ?_⟩
    have := of_decide_eq_false h
    omega

theorem endV_snoc (u : Nat) (t : List Nat) (v : Nat) :
    endV u (t ++ [v]) = v := by
  induction t generalizing u with
  | nil => rfl
  | cons w t ih => exact ih w

theorem optAdd_some {x : Option Nat} {a c : Nat} (h : optAdd x a = some c) :
    ∃ b, x = some b ∧ c = b + a := by
  cases x with
  | none => simp [optAdd] at h
  | some b =>
    refine ⟨b, rfl, ?_⟩
    injection h with h
    omega

theorem walkCost_cons {adj : Nat → List (Nat × Nat)} {u v : Nat} {t : List Nat}
    {c : Nat} (h : walkCost adj u (v :: t) = some c) :
    ∃ c1 c2, lookupC (adj u) v = some c1 ∧ walkCost adj v t = some c2 ∧
      c = c2 + c1 := by
  unfold walkCost at h
  cases hv : lookupC (adj u) v with
  | none => rw [hv] at h; exact absurd h (by simp)
  | some c1 =>
    rw [hv] at h
    obtain ⟨c2, h2, h3⟩ := optAdd_some h
    exact ⟨c1, c2, rfl, h2, h3⟩

theorem walkCost_snoc_some {adj : Nat → List (Nat × Nat)} {u w : Nat}
    {t : List Nat} {c cw : Nat} (h1 : walkCost adj u t = some c)
    (h2 : lookupC (adj (endV u t)) w = some cw) :
    walkCost adj u (t ++ [w]) = some (c + cw) := by
  induction t generalizing u c with
  | nil =>
    injection h1 with h1
    subst h1
    have h3 : lookupC (adj u) w = some cw := h2
    show walkCost adj u [w] = _
    unfold walkCost
    rw [h3]
    rfl
  | cons v t ih =>
    obtain ⟨c1, c2, hv, hrest, hc⟩ := walkCost_cons h1
    subst hc
    have h3 : lookupC (adj (endV v t)) w = some cw := h2
    show walkCost adj u (v :: (t ++ [w])) = _
    unfold walkCost
    rw [hv, ih hrest h3]
    show some ((c2 + cw) + c1) = some ((c2 + c1) + cw)
    congr 1
    omega

theorem walkCost_snoc_inv {adj : Nat → List (Nat × Nat)} {u w : Nat}
    {t : List Nat} {c : Nat} (h : walkCost adj u (t ++ [w]) = some c) :
    ∃ c1 cw, walkCost adj u t = some c1 ∧
      lookupC (adj (endV u t)) w = some cw ∧ c = c1 + cw := by
  induction t generalizing u c with
  | nil =>
    obtain ⟨c1, c2, hv, hrest, hc⟩ := walkCost_cons h
    injection hrest with hrest
    exact ⟨0, c1, rfl, hv, by omega⟩
  | cons v t ih =>
    obtain ⟨c1, c2, hv, hrest, hc⟩ := walkCost_cons h
    obtain ⟨d1, dw, hd1, hdw, hdc⟩ := ih hrest
    refine ⟨d1 + c1, dw, ?_, hdw, by omega⟩
    show walkCost adj u (v :: t) = _
    unfold walkCost
    rw [hv, hd1]
    rfl

theorem reaches_nil (adj : Nat → List (Nat × Nat)) (s : Nat) :
    ReachesC adj s s 0 :=
  ⟨[], rfl, rfl⟩

theorem reaches_snoc {adj : Nat → List (Nat × Nat)} {s u c : Nat}
    (h : ReachesC adj s u c) {v cv : Nat}
    (he : lookupC (adj u) v = some cv) : ReachesC adj s v (c + cv) := by
  obtain ⟨t, hend, hcost⟩ := h
  refine ⟨t ++ [v], endV_snoc s t v, ?_⟩
  rw [← hend] at he
  exact walkCost_snoc_some hcost he

theorem predChain_succ_none {pred : Nat → Option Nat} {f v : Nat}
    (h : pred v = none) : predChain pred (Nat.succ f) v = [v] := by
  show (match pred v with
        | none => [v]
        | some u => predChain pred f u ++ [v]) = [v]
  rw [h]

theorem predChain_succ_some {pred : Nat → Option Nat} {f v u : Nat}
    (h : pred v = some u) :
    predChain pred (Nat.succ f) v = predChain pred f u ++ [v] := by
  show (match pred v with
        | none => [v]
        | some u => predChain pred f u ++ [v]) = predChain pred f u ++ [v]
  rw [h]

/-- Completeness: in a fully relaxed state every walk bounds the distance of
its endpoint. -/
theorem dist_le_of_walk {adj : Nat → List (Nat × Nat)} {n s : Nat}
    {dist pred : Nat → Option Nat} (out : SPOut adj n s dist pred)
    (wf : GraphWF adj n) :
    ∀ (t : List Nat) (u du c : Nat), dist u = some du →
      walkCost adj u t = some c →
      ∃ de, dist (endV u t) = some de ∧ de ≤ du + c := by
  intro t
  induction t with
  | nil =>
    intro u du c hdu hc
    injection hc with hc
    exact ⟨du, hdu, by omega⟩
  | cons v t ih =>
    intro u du c hdu hc
    obtain ⟨c1, c2, hv, hrest, hceq⟩ := walkCost_cons hc
    have hun : u < n := by
      by_contra hun
      rw [wf.oob u (by omega)] at hv
      exact absurd hv (by simp [lookupC])
    have hrel := out.relaxed u hun (v, c1) (mem_of_lookupC hv)
    rw [hdu] at hrel
    obtain ⟨dv, hdv, hle⟩ := le_of_optLtB_false hrel
    obtain ⟨de, hde, hle2⟩ := ih v dv c2 hdv hrest
    exact ⟨de, hde, by omega⟩

/-- Soundness: every finite distance is attained by some walk (following the
predecessor links, which the rank orders well-foundedly). -/
theorem dist_reaches {adj : Nat → List (Nat × Nat)} {n s : Nat}
    {dist pred : Nat → Option Nat} (out : SPOut adj n s dist pred) :
    ∀ v, v < n → ∀ d, dist v = some d → ReachesC adj s v d := by
  obtain ⟨rk, hrk⟩ := out.rank
  have main : ∀ k v, rk v < k → v < n → ∀ d, dist v = some d →
      ReachesC adj s v d := by
    intro k
    induction k with
    | zero => omega
    | succ k ih =>
      intro v hvk hvn d hd
      by_cases hvs : v = s
      · subst hvs
        rw [out.dist_s] at hd
        injection hd with hd
        subst hd
        exact reaches_nil adj _
      · cases hp : pred v with
        | none =>
          rcases out.pred_none v hvn hp with h | h
          · exact absurd h hvs
          · rw [h] at hd
            exact absurd hd (by simp)
        | some u =>
          obtain ⟨hun, hvn2, hvs2, c, du, hlk, hdu, hdv⟩ := out.link v u hp
          rw [hdv] at hd
          injection hd with hd
          subst hd
          have hru : rk u < k := by
            have := hrk v u hp
            omega
          exact reaches_snoc (ih u hru hun du hdu) hlk
  intro v hv d hd
  exact main (rk v + 1) v (by omega) hv d hd

/-- Reconstruction: with fuel `n`, following predecessors from any device of
finite distance produces a walk from the source of exactly that cost. -/
theorem predChain_spec {adj : Nat → List (Nat × Nat)} {n s : Nat}
    {dist pred : Nat → Option Nat} (out : SPOut adj n s dist pred) :
    ∀ v, v < n → ∀ d, dist v = some d →
      ∃ t, predChain pred n v = s :: t ∧ endV s t = v ∧
        walkCost adj s t = some d := by
  obtain ⟨rk, hrk⟩ := out.rank
  let rk2 : Nat → Nat := fun v => ((Finset.range n).filter (fun w => rk w < rk v)).card
  have hrk2 : ∀ v u, pred v = some u → rk2 u < rk2 v := by
    intro v u hp
    have hu : u < n := (out.link v u hp).1
    have hlt := hrk v u hp
    have hsubset : ((Finset.range n).filter (fun w => rk w < rk u)) ⊆
        ((Finset.range n).filter (fun w => rk w < rk v)) := by
      intro w hw
      rw [Finset.mem_filter] at hw ⊢
      exact ⟨hw.1, by omega⟩
    have hmem : u ∈ (Finset.range n).filter (fun w => rk w < rk v) := by
      rw [Finset.mem_filter, Finset.mem_range]
      exact ⟨hu, hlt⟩
    have hnot : u ∉ (Finset.range n).filter (fun w => rk w < rk u) := by
      rw [Finset.mem_filter]
      omega
    exact Finset.card_lt_card
      ((Finset.ssubset_iff_of_subset hsubset).mpr ⟨u, hmem, hnot⟩)
  have hrk2n : ∀ v, rk2 v ≤ n := by
    intro v
    calc ((Finset.range n).filter (fun w => rk w < rk v)).card
        ≤ (Finset.range n).card := Finset.card_filter_le _ _
      _ = n := Finset.card_range n
  have main : ∀ k f v, rk2 v < k → rk2 v ≤ f → v < n → ∀ d, dist v = some d →
      ∃ t, predChain pred f v = s :: t ∧ endV s t = v ∧
        walkCost adj s t = some d := by
    intro k
    induction k with
    | zero => omega
    | succ k ih =>
      intro f v hvk hvf hvn d hd
      by_cases hvs : v = s
      · subst hvs
        rw [out.dist_s] at hd
        injection hd with hd
        subst hd
        refine ⟨[], ?_, rfl, rfl⟩
        cases f with
        | zero => rfl
        | succ f => exact predChain_succ_none out.pred_s
      · cases hp : pred v with
        | none =>
          rcases out.pred_none v hvn hp with h | h
          · exact absurd h hvs
          · rw [h] at hd
            exact absurd hd (by simp)
        | some u =>
          obtain ⟨hun, hvn2, hvs2, c, du, hlk, hdu, hdv⟩ := out.link v u hp
          rw [hdv] at hd
          injection hd with hd
          subst hd
          have hposv : 0 < rk2 v := by
            have := hrk2 v u hp
            omega
          cases f with
          | zero => omega
          | succ f =>
            have hru : rk2 u < k := by
              have := hrk2 v u hp
              omega
            have hruf : rk2 u ≤ f := by
              have := hrk2 v u hp
              omega
            obtain ⟨t, hchain, hend, hcost⟩ := ih f u hru hruf hun du hdu
            refine ⟨t ++ [v], ?_, endV_snoc s t v, ?_⟩
            · rw [predChain_succ_some hp, hchain]
              rfl
            · rw [← hend] at hlk
              exact walkCost_snoc_some hcost hlk
  intro v hvn d hd
  exact main (rk2 v + 1) n v (by omega) (hrk2n v) hvn d hd

/-- The postcondition `SPOut` yields exactly what claim C1 asserts of the
predecessor map. -/
theorem spout_predOK {adj : Nat → List (Nat × Nat)} {n s : Nat}
    {dist pred : Nat → Option Nat} (out : SPOut adj n s dist pred)
    (wf : GraphWF adj n) : PredOK adj n s pred := by
  have hdistSome : ∀ v, v < n → Reachable adj s v → ∃ d, dist v = some d := by
    intro v hv ⟨c, t, hend, hcost⟩
    subst hend
    obtain ⟨de, hde, _⟩ := dist_le_of_walk out wf t s 0 c out.dist_s hcost
    exact ⟨de, hde⟩
  constructor
  · intro v hv
    constructor
    · intro hp
      rcases out.pred_none v hv hp with h | h
      · exact Or.inl h
      · refine Or.inr (fun hreach => ?_)
        obtain ⟨d, hd⟩ := hdistSome v hv hreach
        rw [h] at hd
        exact absurd hd (by simp)
    · intro h
      rcases h with h | h
      · subst h
        exact out.pred_s
      · cases hp : pred v with
        | none => rfl
        | some u =>
          obtain ⟨hun, hvn2, hvs2, c, du, hlk, hdu, hdv⟩ := out.link v u hp
          exact absurd ⟨du + c, dist_reaches out v hv (du + c) hdv⟩ h
  · intro v hv hreach
    obtain ⟨d, hd⟩ := hdistSome v hv hreach
    obtain ⟨t, hchain, hend, hcost⟩ := predChain_spec out v hv d hd
    refine ⟨t, d, hchain, hend, hcost, ⟨⟨t, hend, hcost⟩, ?_⟩⟩
    intro c hc
    obtain ⟨t2, hend2, hcost2⟩ := hc
    subst hend2
    obtain ⟨de, hde, hle⟩ := dist_le_of_walk out wf t2 s 0 c out.dist_s hcost2
    rw [hd] at hde
    injection hde with hde
    omega

/-! ### Dijkstra (rede.py): loop invariant -/

theorem optLtB_irrefl (x : Option Nat) : optLtB x x = false := by
  cases x with
  | none => rfl
  | some a => simp [optLtB]

theorem optLtB_asymm {x y : Option Nat} (h : optLtB x y = true) :
    optLtB y x = false := by
  cases x <;> cases y <;> simp_all [optLtB] <;> omega

theorem optLtB_trans_false {x y z : Option Nat} (h1 : optLtB x y = false)
    (h2 : optLtB y z = false) : optLtB x z = false := by
  cases x <;> cases y <;> cases z <;> simp_all [optLtB] <;> omega

theorem R.selectMin_none_iff (dist : Nat → Option Nat) (l : List Nat) :
    R.selectMin dist l = none ↔ l = [] := by
  cases l with
  | nil => simp [R.selectMin]
  | cons u rest =>
    simp only [R.selectMin]
    cases R.selectMin dist rest with
    | none => simp
    | some m =>
      by_cases h : optLtB (dist m) (dist u) = true
      · simp [h]
      · simp [h]

theorem R.selectMin_mem {dist : Nat → Option Nat} {l : List Nat} {m : Nat}
    (h : R.selectMin dist l = some m) : m ∈ l := by
  induction l generalizing m with
  | nil => simp [R.selectMin] at h
  | cons u rest ih =>
    simp only [R.selectMin] at h
    cases hr : R.selectMin dist rest with
    | none =>
      rw [hr] at h
      dsimp only at h
      injection h with h
      subst h
      exact List.mem_cons_self u rest
    | some m2 =>
      rw [hr] at h
      dsimp only at h
      by_cases h2 : optLtB (dist m2) (dist u) = true
      · rw [if_pos h2] at h
        injection h with h
        subst h
        exact List.mem_cons_of_mem _ (ih hr)
      · rw [if_neg h2] at h
        injection h with h
        subst h
        exact List.mem_cons_self u rest

theorem R.selectMin_min {dist : Nat → Option Nat} {l : List Nat} {m : Nat}
    (h : R.selectMin dist l = some m) :
    ∀ x ∈ l, optLtB (dist x) (dist m) = false := by
  induction l generalizing m with
  | nil => simp [R.selectMin] at h
  | cons u rest ih =>
    simp only [R.selectMin] at h
    intro x hx
    cases hr : R.selectMin dist rest with
    | none =>
      rw [hr] at h
      dsimp only at h
      injection h with h
      subst h
      rcases List.mem_cons.mp hx with hxu | hxr
      · subst hxu
        exact optLtB_irrefl _
      · rw [(R.selectMin_none_iff dist rest).mp hr] at hxr
        exact absurd hxr (List.not_mem_nil x)
    | some m2 =>
      rw [hr] at h
      dsimp only at h
      by_cases h2 : optLtB (dist m2) (dist u) = true
      · rw [if_pos h2] at h
        injection h with h
        subst h
        rcases List.mem_cons.mp hx with hxu | hxr
        · subst hxu
          exact optLtB_asymm h2
        · exact ih hr x hxr
      · rw [if_neg h2] at h
        injection h with h
        subst h
        rcases List.mem_cons.mp hx with hxu | hxr
        · subst hxu
          exact optLtB_irrefl _
        · have hm2 := ih hr x hxr
          have h2f : optLtB (dist m2) (dist u) = false := by simpa using h2
          exact optLtB_trans_false hm2 h2f

theorem idxOf_append_mem {l : List Nat} {x : Nat} (h : x ∈ l) (l2 : List Nat) :
    idxOf (l ++ l2) x = idxOf l x := by
  induction l with
  | nil => exact absurd h (List.not_mem_nil x)
  | cons a t ih =>
    by_cases ha : a = x
    · simp [idxOf, ha]
    · rcases List.mem_cons.mp h with h1 | h1
      · exact absurd h1.symm ha
      · simp [idxOf, ha, ih h1]

theorem idxOf_lt_length {l : List Nat} {x : Nat} (h : x ∈ l) :
    idxOf l x < l.length := by
  induction l with
  | nil => exact absurd h (List.not_mem_nil x)
  | cons a t ih =>
    by_cases ha : a = x
    · simp [idxOf, ha]
    · rcases List.mem_cons.mp h with h1 | h1
      · exact absurd h1.symm ha
      · simp only [idxOf, if_neg ha, List.length_cons]
        exact Nat.succ_lt_succ (ih h1)

theorem idxOf_append_self {l : List Nat} {x : Nat} (h : x ∉ l) :
    idxOf (l ++ [x]) x = l.length := by
  induction l with
  | nil => simp [idxOf]
  | cons a t ih =>
    have ha : a ≠ x := fun hh => h (hh ▸ List.mem_cons_self a t)
    have ht : x ∉ t := fun hh => h (List.mem_cons_of_mem _ hh)
    simp [idxOf, ha, ih ht]

/-- The cut argument: any walk from the source to an unvisited vertex passes,
at its first unvisited vertex, a tentative distance no larger than the walk's
cost. -/
theorem cut_bound {adj : Nat → List (Nat × Nat)} {n s : Nat}
    {vis unvisited : List Nat} {dist pred : Nat → Option Nat}
    (inv : DInv adj n s vis unvisited dist pred) (wf : GraphWF adj n)
    (hs : s < n) :
    ∀ (t : List Nat) (v c : Nat), endV s t = v → walkCost adj s t = some c →
      v ∈ unvisited →
      ∃ w dw, w ∈ unvisited ∧ dist w = some dw ∧ dw ≤ c := by
  intro t
  induction t using List.reverseRecOn with
  | nil =>
    intro v c hend hcost hv
    injection hcost with hcost
    subst hend
    exact ⟨s, 0, hv, inv.dist_s, by omega⟩
  | append_singleton t v2 ih =>
    intro v c hend hcost hv
    rw [endV_snoc] at hend
    subst hend
    obtain ⟨c1, cw, hc1, hcw, hceq⟩ := walkCost_snoc_inv hcost
    by_cases hu0 : endV s t ∈ unvisited
    · obtain ⟨w, dw, hw1, hw2, hw3⟩ := ih (endV s t) c1 rfl hc1 hu0
      exact ⟨w, dw, hw1, hw2, by omega⟩
    · have hu0n : endV s t < n := by
        by_contra hn
        rw [wf.oob (endV s t) (by omega)] at hcw
        exact absurd hcw (by simp [lookupC])
      have hu0vis : endV s t ∈ vis := by
        rcases (inv.cover (endV s t)).mp hu0n with h | h
        · exact h
        · exact absurd h hu0
      obtain ⟨du, hdu, hduc⟩ := inv.lb (endV s t) hu0vis c1 ⟨t, rfl, hc1⟩
      have hrel := inv.rlx (endV s t) hu0vis (v2, cw) (mem_of_lookupC hcw)
      rw [hdu] at hrel
      obtain ⟨dv, hdv, hdvle⟩ := le_of_optLtB_false hrel
      exact ⟨v2, dv, hv, hdv, by omega⟩

theorem relaxFrom_cons (atual v c : Nat) (rest : List (Nat × Nat))
    (dist pred : Nat → Option Nat) :
    R.relaxFrom atual ((v, c) :: rest) dist pred =
      if optLtB (optAdd (dist atual) c) (dist v) = true then
        R.relaxFrom atual rest (updO dist v (optAdd (dist atual) c))
          (updO pred v (some atual))
      else R.relaxFrom atual rest dist pred := rfl

/-- One pass of the relaxation loop preserves the mid-loop invariant and
leaves every edge of `atual` relaxed. -/
theorem relaxFrom_inv {adj : Nat → List (Nat × Nat)} {n s atual : Nat}
    {vis unvisited : List Nat} (wf : GraphWF adj n)
    (hav : atual ∈ vis) :
    ∀ (rem : List (Nat × Nat)) (dist pred : Nat → Option Nat),
      MidInv adj n s atual vis unvisited dist pred →
      (∀ vc ∈ rem, vc ∈ adj atual) →
      (∀ vc, vc ∈ adj atual → vc ∉ rem →
        optLtB (optAdd (dist atual) vc.2) (dist vc.1) = false) →
      MidInv adj n s atual vis unvisited
        (R.relaxFrom atual rem dist pred).1
        (R.relaxFrom atual rem dist pred).2 ∧
      (∀ vc, vc ∈ adj atual →
        optLtB (optAdd ((R.relaxFrom atual rem dist pred).1 atual) vc.2)
          ((R.relaxFrom atual rem dist pred).1 vc.1) = false) := by
  intro rem
  induction rem with
  | nil =>
    intro dist pred hmid hsub hdone
    exact ⟨hmid, fun vc hvc => hdone vc hvc (by simp)⟩
  | cons vc0 rest ih =>
    obtain ⟨v, c⟩ := vc0
    intro dist pred hmid hsub hdone
    rw [relaxFrom_cons]
    by_cases hcond : optLtB (optAdd (dist atual) c) (dist v) = true
    · rw [if_pos hcond]
      obtain ⟨da, hda⟩ : ∃ da, dist atual = some da := by
        cases hd : dist atual with
        | none =>
          rw [hd] at hcond
          exact absurd hcond (by simp [optAdd, optLtB])
        | some da => exact ⟨da, rfl⟩
      have hvmem : (v, c) ∈ adj atual := hsub (v, c) (List.mem_cons_self _ _)
      have hvn : v < n := wf.tgt atual (v, c) hvmem
      have hlkv : lookupC (adj atual) v = some c :=
        lookupC_of_mem_nodup hvmem (wf.keysNodup atual)
      have hreachA : ReachesC adj s atual da := hmid.snd atual da hda
      have hreachV : ReachesC adj s v (da + c) := reaches_snoc hreachA hlkv
      have hvAtual : v ≠ atual := by
        rintro rfl
        rw [hda] at hcond
        simp [optAdd, optLtB] at hcond
      have hvs : v ≠ s := by
        rintro rfl
        rw [hmid.dist_s, hda] at hcond
        simp [optAdd, optLtB] at hcond
      have hvNotVis : v ∉ vis := by
        intro hvv
        obtain ⟨dv, hdv, hdvle⟩ := hmid.lb v hvv (da + c) hreachV
        rw [hda, hdv] at hcond
        simp [optAdd, optLtB] at hcond
        omega
      have hd2a : (updO dist v (optAdd (dist atual) c)) atual = some da := by
        rw [updO_ne _ _ (fun hh => hvAtual hh.symm), hda]
      have hd2v : (updO dist v (optAdd (dist atual) c)) v = some (da + c) := by
        rw [updO_self, hda]
        rfl
      have hmid2 : MidInv adj n s atual vis unvisited
          (updO dist v (optAdd (dist atual) c)) (updO pred v (some atual)) := by
        refine ⟨hmid.cover, hmid.disj, hmid.nodupU, ?_, ?_, ?_, ?_, ?_, ?_, ?_, ?_⟩
        · rw [updO_ne _ _ (fun hh => hvs hh.symm)]
          exact hmid.dist_s
        · rw [updO_ne _ _ (fun hh => hvs hh.symm)]
          exact hmid.pred_s
        · intro w d hw
          by_cases hwv : w = v
          · subst hwv
            rw [hd2v] at hw
            injection hw with hw
            subst hw
            exact hreachV
          · rw [updO_ne _ _ hwv] at hw
            exact hmid.snd w d hw
        · intro w hwn hpw
          by_cases hwv : w = v
          · subst hwv
            rw [updO_self] at hpw
            exact absurd hpw (by simp)
          · rw [updO_ne _ _ hwv] at hpw
            rcases hmid.pnone w hwn hpw with h | h
            · exact Or.inl h
            · refine Or.inr ?_
              rw [updO_ne _ _ hwv]
              exact h
        · intro w hwvis cc hreach
          have hwv : w ≠ v := fun hh => hvNotVis (hh ▸ hwvis)
          rw [updO_ne _ _ hwv]
          exact hmid.lb w hwvis cc hreach
        · intro u huvis hune vc hvc
          have huv : u ≠ v := fun hh => hvNotVis (hh ▸ huvis)
          rw [updO_ne _ _ huv]
          by_cases htv : vc.1 = v
          · rw [htv, hd2v]
            have hold := hmid.rlx u huvis hune vc hvc
            rw [htv] at hold
            have hasym : optLtB (dist v) (some (da + c)) = false := by
              have := optLtB_asymm hcond
              rw [hda] at this
              exact this
            exact optLtB_trans_false hold hasym
          · rw [updO_ne _ _ htv]
            exact hmid.rlx u huvis hune vc hvc
        · intro w u hpw
          by_cases hwv : w = v
          · subst hwv
            rw [updO_self] at hpw
            injection hpw with hpw
            subst hpw
            refine ⟨hav, hvn, hvs, c, da, hlkv, hd2a, hd2v⟩
          · rw [updO_ne _ _ hwv] at hpw
            obtain ⟨huvis, hwn, hws, cc, du, hlk, hdu, hdw⟩ := hmid.link w u hpw
            have huv : u ≠ v := fun hh => hvNotVis (hh ▸ huvis)
            refine ⟨huvis, hwn, hws, cc, du, hlk, ?_, ?_⟩
            · rw [updO_ne _ _ huv]
              exact hdu
            · rw [updO_ne _ _ hwv]
              exact hdw
        · intro w u hpw hwvis
          have hwv : w ≠ v := fun hh => hvNotVis (hh ▸ hwvis)
          rw [updO_ne _ _ hwv] at hpw
          exact hmid.rankv w u hpw hwvis
      refine ih (updO dist v (optAdd (dist atual) c)) (updO pred v (some atual))
        hmid2 (fun vc hvc => hsub vc (List.mem_cons_of_mem _ hvc)) ?_
      intro vc hvc hvcrest
      by_cases hvcv : vc = (v, c)
      · subst hvcv
        rw [hd2a, hd2v]
        simp [optAdd, optLtB]
      · have htne : vc.1 ≠ v := by
          intro hh
          have : lookupC (adj atual) vc.1 = some vc.2 :=
            lookupC_of_mem_nodup (by exact hvc) (wf.keysNodup atual)
          rw [hh, hlkv] at this
          injection this with this
          exact hvcv (by
            obtain ⟨a, b⟩ := vc
            simp only at hh this
            rw [hh, this])
        rw [hd2a, updO_ne _ _ htne]
        have hold := hdone vc hvc (by
          intro hmem
          rcases List.mem_cons.mp hmem with h | h
          · exact hvcv h
          · exact hvcrest h)
        rw [hda] at hold
        exact hold
    · rw [if_neg hcond]
      refine ih dist pred hmid (fun vc hvc => hsub vc (List.mem_cons_of_mem _ hvc)) ?_
      intro vc hvc hvcrest
      by_cases hvcv : vc = (v, c)
      · subst hvcv
        exact Bool.not_eq_true _ ▸ (by simpa using hcond)
      · exact hdone vc hvc (by
          intro hmem
          rcases List.mem_cons.mp hmem with h | h
          · exact hvcv h
          · exact hvcrest h)

theorem dijkstraGo_succ {adj : Nat → List (Nat × Nat)} {f : Nat}
    {unvisited : List Nat} {dist pred : Nat → Option Nat} {atual : Nat}
    (h : R.selectMin dist unvisited = some atual) :
    R.dijkstraGo adj (Nat.succ f) unvisited dist pred =
      R.dijkstraGo adj f (unvisited.erase atual)
        (R.relaxFrom atual (adj atual) dist pred).1
        (R.relaxFrom atual (adj atual) dist pred).2 := by
  show (match R.selectMin dist unvisited with
        | none => (dist, pred)
        | some atual =>
          R.dijkstraGo adj f (unvisited.erase atual)
            (R.relaxFrom atual (adj atual) dist pred).1
            (R.relaxFrom atual (adj atual) dist pred).2) = _
  rw [h]

theorem dijkstraGo_succ_none {adj : Nat → List (Nat × Nat)} {f : Nat}
    {unvisited : List Nat} {dist pred : Nat → Option Nat}
    (h : R.selectMin dist unvisited = none) :
    R.dijkstraGo adj (Nat.succ f) unvisited dist pred = (dist, pred) := by
  show (match R.selectMin dist unvisited with
        | none => (dist, pred)
        | some atual =>
          R.dijkstraGo adj f (unvisited.erase atual)
            (R.relaxFrom atual (adj atual) dist pred).1
            (R.relaxFrom atual (adj atual) dist pred).2) = _
  rw [h]

/-- The settle loop turns the invariant into the engine postcondition. -/
theorem dijkstraGo_spout {adj : Nat → List (Nat × Nat)} {n s : Nat}
    (wf : GraphWF adj n) (hs : s < n) :
    ∀ (k : Nat) (unvisited vis : List Nat) (dist pred : Nat → Option Nat),
      unvisited.length = k →
      DInv adj n s vis unvisited dist pred →
      SPOut adj n s (R.dijkstraGo adj k unvisited dist pred).1
        (R.dijkstraGo adj k unvisited dist pred).2 := by
  intro k
  induction k with
  | zero =>
    intro unvisited vis dist pred hlen hinv
    have hemp : unvisited = [] := List.length_eq_zero.mp hlen
    subst hemp
    refine ⟨hinv.dist_s, hinv.pred_s, hinv.pnone, ?_, ?_, ?_⟩
    · intro v u hp
      obtain ⟨huvis, rest⟩ := hinv.link v u hp
      have hun : u < n := (hinv.cover u).mpr (Or.inl huvis)
      exact ⟨hun, rest⟩
    · refine ⟨idxOf vis, ?_⟩
      intro v u hp
      have hl := hinv.link v u hp
      have hvvis : v ∈ vis := by
        rcases (hinv.cover v).mp hl.2.1 with h | h
        · exact h
        · exact absurd h (List.not_mem_nil v)
      exact hinv.rankv v u hp hvvis
    · intro u hun vc hvc
      have huvis : u ∈ vis := by
        rcases (hinv.cover u).mp hun with h | h
        · exact h
        · exact absurd h (List.not_mem_nil u)
      exact hinv.rlx u huvis vc hvc
  | succ k ih =>
    intro unvisited vis dist pred hlen hinv
    have hne : unvisited ≠ [] := by
      intro hh
      rw [hh] at hlen
      simp at hlen
    obtain ⟨atual, hsel⟩ : ∃ a, R.selectMin dist unvisited = some a := by
      cases hsel : R.selectMin dist unvisited with
      | none => exact absurd ((R.selectMin_none_iff dist unvisited).mp hsel) hne
      | some a => exact ⟨a, rfl⟩
    rw [dijkstraGo_succ hsel]
    have hamem : atual ∈ unvisited := R.selectMin_mem hsel
    have hanotvis : atual ∉ vis := fun hh => hinv.disj atual hh hamem
    have han : atual < n := (hinv.cover atual).mpr (Or.inr hamem)
    have hLB : ∀ c, ReachesC adj s atual c →
        ∃ da, dist atual = some da ∧ da ≤ c := by
      intro c hreach
      obtain ⟨t, hend, hcost⟩ := hreach
      obtain ⟨w, dw, hw1, hw2, hw3⟩ := cut_bound hinv wf hs t atual c hend hcost hamem
      have hmin := R.selectMin_min hsel w hw1
      rw [hw2] at hmin
      obtain ⟨da, hda, hdale⟩ := le_of_optLtB_false hmin
      exact ⟨da, hda, by omega⟩
    have hmid : MidInv adj n s atual (vis ++ [atual]) (unvisited.erase atual)
        dist pred := by
      refine ⟨?_, ?_, hinv.nodupU.erase atual, hinv.dist_s, hinv.pred_s,
        hinv.snd, hinv.pnone, ?_, ?_, ?_, ?_⟩
      · intro v
        constructor
        · intro hv
          rcases (hinv.cover v).mp hv with h | h
          · exact Or.inl (List.mem_append_left _ h)
          · by_cases hva : v = atual
            · subst hva
              exact Or.inl (List.mem_append_right _ (List.mem_singleton_self v))
            · exact Or.inr ((hinv.nodupU.mem_erase_iff).mpr ⟨hva, h⟩)
        · intro hv
          rcases hv with h | h
          · rcases List.mem_append.mp h with h1 | h1
            · exact (hinv.cover v).mpr (Or.inl h1)
            · rw [List.mem_singleton] at h1
              subst h1
              exact han
          · exact (hinv.cover v).mpr (Or.inr (List.mem_of_mem_erase h))
      · intro v hv1 hv2
        rcases List.mem_append.mp hv1 with h | h
        · exact hinv.disj v h (List.mem_of_mem_erase hv2)
        · rw [List.mem_singleton] at h
          subst h
          exact ((hinv.nodupU.mem_erase_iff).mp hv2).1 rfl
      · intro v hv c hreach
        rcases List.mem_append.mp hv with h | h
        · exact hinv.lb v h c hreach
        · rw [List.mem_singleton] at h
          subst h
          exact hLB c hreach
      · intro u hu hune vc hvc
        rcases List.mem_append.mp hu with h | h
        · exact hinv.rlx u h vc hvc
        · rw [List.mem_singleton] at h
          exact absurd h hune
      · intro v u hp
        obtain ⟨huvis, rest⟩ := hinv.link v u hp
        exact ⟨List.mem_append_left _ huvis, rest⟩
      · intro v u hp hvvis2
        obtain ⟨huvis, _⟩ := hinv.link v u hp
        rcases List.mem_append.mp hvvis2 with h | h
        · rw [idxOf_append_mem huvis, idxOf_append_mem h]
          exact hinv.rankv v u hp h
        · rw [List.mem_singleton] at h
          subst h
          rw [idxOf_append_mem huvis, idxOf_append_self hanotvis]
          exact idxOf_lt_length huvis
    obtain ⟨hmid2, hrlxA⟩ := relaxFrom_inv wf
      (List.mem_append_right _ (List.mem_singleton_self atual))
      (adj atual) dist pred hmid (fun _ hvc => hvc)
      (fun vc hvc hnin => absurd hvc hnin)
    have hdinv2 : DInv adj n s (vis ++ [atual]) (unvisited.erase atual)
        (R.relaxFrom atual (adj atual) dist pred).1
        (R.relaxFrom atual (adj atual) dist pred).2 := by
      refine ⟨hmid2.cover, hmid2.disj, hmid2.nodupU, hmid2.dist_s, hmid2.pred_s,
        hmid2.snd, hmid2.pnone, hmid2.lb, ?_, hmid2.link, hmid2.rankv⟩
      intro u hu vc hvc
      by_cases hua : u = atual
      · subst hua
        exact hrlxA vc hvc
      · exact hmid2.rlx u hu hua vc hvc
    have hlen2 : (unvisited.erase atual).length = k := by
      rw [List.length_erase_of_mem hamem, hlen]
      omega
    exact ih (unvisited.erase atual) (vis ++ [atual]) _ _ hlen2 hdinv2

/-- `Rede.dijkstra` satisfies the engine postcondition on every well-formed
topology. -/
theorem dijkstra_spout (r : R.Rede) (s : Nat) (wf : R.WF r) (hs : s < r.n) :
    SPOut r.adjOf r.n s (r.dijkstra s).1 (r.dijkstra s).2 := by
  have hinit : DInv r.adjOf r.n s [] (List.range r.n)
      (updO (fun _ => none) s (some 0)) (fun _ => none) := by
    refine ⟨?_, ?_, List.nodup_range _, updO_self _ _ _, rfl, ?_, ?_, ?_, ?_, ?_, ?_⟩
    · intro v
      simp [List.mem_range]
    · intro v hv
      simp at hv
    · intro v d hv
      by_cases hvs : v = s
      · subst hvs
        rw [updO_self] at hv
        injection hv with hv
        subst hv
        exact reaches_nil _ _
      · rw [updO_ne _ _ hvs] at hv
        exact absurd hv (by simp)
    · intro v hvn hpred
      by_cases hvs : v = s
      · exact Or.inl hvs
      · exact Or.inr (updO_ne _ _ hvs)
    · intro v hv
      simp at hv
    · intro u hu
      simp at hu
    · intro v u hp
      exact absurd hp (by simp)
    · intro v u hp hvvis
      exact absurd hp (by simp)
  have h := dijkstraGo_spout wf hs r.n (List.range r.n) [] _ _
    (List.length_range r.n) hinit
  exact h

/-- The settle loop needs exactly one pass per unvisited device: any fuel of
at least that length gives the same result, i.e. the `while` loop
terminates. -/
theorem dijkstraGo_fuel_stable {adj : Nat → List (Nat × Nat)} :
    ∀ (f : Nat) (unvisited : List Nat) (dist pred : Nat → Option Nat),
      unvisited.length ≤ f →
      R.dijkstraGo adj f unvisited dist pred =
        R.dijkstraGo adj unvisited.length unvisited dist pred := by
  intro f
  induction f with
  | zero =>
    intro unvisited dist pred hle
    have h0 : unvisited.length = 0 := by omega
    rw [h0]
  | succ f ih =>
    intro unvisited dist pred hle
    cases hsel : R.selectMin dist unvisited with
    | none =>
      have hemp := (R.selectMin_none_iff dist unvisited).mp hsel
      subst hemp
      rw [dijkstraGo_succ_none hsel]
      rfl
    | some atual =>
      have hmem := R.selectMin_mem hsel
      have hne : unvisited ≠ [] := by
        rintro rfl
        simp at hmem
      have hpos : 0 < unvisited.length := List.length_pos.mpr hne
      have hlen : unvisited.length = (unvisited.erase atual).length + 1 := by
        rw [List.length_erase_of_mem hmem]
        omega
      rw [dijkstraGo_succ hsel, hlen, dijkstraGo_succ hsel,
        ih (unvisited.erase atual) _ _ (by omega)]

/-! ### The heap engine of topologia.py -/

theorem popMin_none_iff (l : List T.Entry) : T.popMin l = none ↔ l = [] := by
  cases l with
  | nil => simp [T.popMin]
  | cons e t =>
    simp only [T.popMin]
    cases T.popMin t with
    | none => simp
    | some p =>
      by_cases h : T.entryLeB e p.1 = true
      · simp [h]
      · simp [h]

theorem popMin_perm {l : List T.Entry} {e : T.Entry} {rest : List T.Entry}
    (h : T.popMin l = some (e, rest)) : l.Perm (e :: rest) := by
  induction l generalizing e rest with
  | nil => simp [T.popMin] at h
  | cons a t ih =>
    simp only [T.popMin] at h
    cases hp : T.popMin t with
    | none =>
      rw [hp] at h
      dsimp only at h
      injection h with h
      injection h with h1 h2
      subst h1
      subst h2
      rw [(popMin_none_iff t).mp hp]
    | some p =>
      rw [hp] at h
      obtain ⟨m, rest2⟩ := p
      dsimp only at h
      by_cases hle : T.entryLeB a m = true
      · rw [if_pos hle] at h
        injection h with h
        injection h with h1 h2
        subst h1
        subst h2
        exact List.Perm.refl _
      · rw [if_neg hle] at h
        injection h with h
        injection h with h1 h2
        subst h1
        subst h2
        exact ((ih hp).cons a).trans (List.Perm.swap m a rest2)

/-- When the queue has drained, the `bfs` invariant yields the engine
postcondition. -/
theorem binv_empty_spout {adj : Nat → List (Nat × Nat)} {n s : Nat}
    {dist pred : Nat → Option Nat} (binv : BInv adj n s dist pred []) :
    SPOut adj n s dist pred := by
  have hrelaxed : ∀ u, u < n → ∀ vc, vc ∈ adj u →
      optLtB (optAdd (dist u) vc.2) (dist vc.1) = false := by
    intro u hu vc hvc
    rcases binv.cov u hu vc hvc with h | h
    · exact h
    · obtain ⟨e, he, _⟩ := h
      exact absurd he (List.not_mem_nil e)
  refine ⟨binv.dist_s, binv.pred_s, binv.pnone, ?_, ?_, hrelaxed⟩
  · intro v u hp
    obtain ⟨hun, hvn, hvs, c, hlk, ⟨dv, hdv⟩, hge, hnn⟩ := binv.link v u hp
    obtain ⟨du, hdu⟩ : ∃ du, dist u = some du := by
      cases hd : dist u with
      | none => exact absurd hd hnn
      | some du => exact ⟨du, rfl⟩
    have h1 : du + c ≤ dv := hge du dv hdu hdv
    have h2 := hrelaxed u hun (v, c) (mem_of_lookupC hlk)
    rw [hdu, hdv] at h2
    have h3 : dv ≤ du + c := by
      have := of_decide_eq_false h2
      omega
    refine ⟨hun, hvn, hvs, c, du, hlk, hdu, ?_⟩
    rw [hdv]
    congr 1
    omega
  · obtain ⟨tm, now, hb, hord⟩ := binv.tord
    have hnow : 1 ≤ now := by
      have := hb 0
      omega
    refine ⟨fun v => (match dist v with
      | some dval => dval * now + tm v
      | none => 0), ?_⟩
    intro v u hp
    obtain ⟨hun, hvn, hvs, c, hlk, ⟨dv, hdv⟩, hge, hnn⟩ := binv.link v u hp
    obtain ⟨du, hdu⟩ : ∃ du, dist u = some du := by
      cases hd : dist u with
      | none => exact absurd hd hnn
      | some du => exact ⟨du, rfl⟩
    simp only [hdu, hdv]
    rcases hord v u hp du dv hdu hdv with h | ⟨h1, h2⟩
    · have htu := hb u
      have h4 : du * now + tm u < (du + 1) * now := by
        have : (du + 1) * now = du * now + now := by ring
        omega
      have h5 : (du + 1) * now ≤ dv * now := by
        apply Nat.mul_le_mul_right
        omega
      omega
    · subst h1
      omega

theorem relaxT_cons (u d v c : Nat) (rest : List (Nat × Nat)) (counter : Nat)
    (dist pred : Nat → Option Nat) :
    T.relaxT u d ((v, c) :: rest) counter dist pred =
      (if optLtB (some (d + c)) (dist v) = true then
        { T.relaxT u d rest (counter + 1)
            (updO dist v (some (d + c))) (updO pred v (some u)) with
          pushes := (d + c, counter + 1, v) ::
            (T.relaxT u d rest (counter + 1)
              (updO dist v (some (d + c))) (updO pred v (some u))).pushes }
      else T.relaxT u d rest counter dist pred) := rfl

/-- The relaxation loop of one pop restores the full queue invariant, with
the fresh entries appended. -/
theorem relaxT_inv {adj : Nat → List (Nat × Nat)} {n s u d : Nat}
    (wf : GraphWF adj n) (hun : u < n) :
    ∀ (rem : List (Nat × Nat)) (counter : Nat) (dist pred : Nat → Option Nat)
      (q : List T.Entry),
      dist u = some d →
      (∀ vc ∈ rem, vc ∈ adj u) →
      BMid adj n s u dist pred q rem →
      BInv adj n s (T.relaxT u d rem counter dist pred).dist
        (T.relaxT u d rem counter dist pred).pred
        (q ++ (T.relaxT u d rem counter dist pred).pushes) := by
  intro rem
  induction rem with
  | nil =>
    intro counter dist pred q hdu hsub hmid
    show BInv adj n s dist pred (q ++ [])
    rw [List.append_nil]
    refine ⟨hmid.dist_s, hmid.pred_s, hmid.snd, hmid.pnone, hmid.dev, hmid.key,
      ?_, hmid.link, hmid.tord⟩
    intro u2 hu2 vc hvc
    refine hmid.cov u2 hu2 vc hvc ?_
    rintro ⟨_, hmem⟩
    exact absurd hmem (List.not_mem_nil vc)
  | cons vc0 rest ih =>
    obtain ⟨v, c⟩ := vc0
    intro counter dist pred q hdu hsub hmid
    rw [relaxT_cons]
    by_cases hcond : optLtB (some (d + c)) (dist v) = true
    · rw [if_pos hcond]
      have hvmem : (v, c) ∈ adj u := hsub (v, c) (List.mem_cons_self _ _)
      have hvn : v < n := wf.tgt u (v, c) hvmem
      have hlkv : lookupC (adj u) v = some c :=
        lookupC_of_mem_nodup hvmem (wf.keysNodup u)
      have hreachU : ReachesC adj s u d := hmid.snd u d hdu
      have hreachV : ReachesC adj s v (d + c) := reaches_snoc hreachU hlkv
      have hvu : v ≠ u := by
        rintro rfl
        rw [hdu] at hcond
        simp [optLtB] at hcond
      have hvs : v ≠ s := by
        rintro rfl
        rw [hmid.dist_s] at hcond
        simp [optLtB] at hcond
      have hdu2 : (updO dist v (some (d + c))) u = some d := by
        rw [updO_ne _ _ (fun hh => hvu hh.symm)]
        exact hdu
      have hd2v : (updO dist v (some (d + c))) v = some (d + c) := updO_self _ _ _
      have hmid2 : BMid adj n s u (updO dist v (some (d + c)))
          (updO pred v (some u)) (q ++ [(d + c, counter + 1, v)]) rest := by
        refine ⟨?_, ?_, ?_, ?_, ?_, ?_, ?_, ?_, ?_⟩
        · rw [updO_ne _ _ (fun hh => hvs hh.symm)]
          exact hmid.dist_s
        · rw [updO_ne _ _ (fun hh => hvs hh.symm)]
          exact hmid.pred_s
        · intro w dd hw
          by_cases hwv : w = v
          · subst hwv
            rw [hd2v] at hw
            injection hw with hw
            subst hw
            exact hreachV
          · rw [updO_ne _ _ hwv] at hw
            exact hmid.snd w dd hw
        · intro w hwn hpw
          by_cases hwv : w = v
          · subst hwv
            rw [updO_self] at hpw
            exact absurd hpw (by simp)
          · rw [updO_ne _ _ hwv] at hpw
            rcases hmid.pnone w hwn hpw with h | h
            · exact Or.inl h
            · refine Or.inr ?_
              rw [updO_ne _ _ hwv]
              exact h
        · intro e he
          rcases List.mem_append.mp he with h | h
          · exact hmid.dev e h
          · rw [List.mem_singleton] at h
            subst h
            exact hvn
        · intro e he
          rcases List.mem_append.mp he with h | h
          · by_cases hev : e.2.2 = v
            · obtain ⟨x, hx, hxle⟩ := hmid.key e h
              rw [hev] at hx
              rw [hev, hd2v]
              refine ⟨d + c, rfl, ?_⟩
              rw [hx] at hcond
              simp [optLtB] at hcond
              omega
            · obtain ⟨x, hx, hxle⟩ := hmid.key e h
              rw [updO_ne _ _ hev]
              exact ⟨x, hx, hxle⟩
          · rw [List.mem_singleton] at h
            subst h
            exact ⟨d + c, hd2v, Nat.le_refl _⟩
        · intro u2 hu2 vc hvc hnex
          by_cases hu2u : u2 = u
          · subst hu2u
            have hninrest : vc ∉ rest := fun hh => hnex ⟨rfl, hh⟩
            by_cases hvcv : vc = (v, c)
            · subst hvcv
              refine Or.inl ?_
              rw [hdu2, hd2v]
              simp [optAdd, optLtB]
            · have htne : vc.1 ≠ v := by
                intro hh
                have h2 : lookupC (adj u2) vc.1 = some vc.2 :=
                  lookupC_of_mem_nodup hvc (wf.keysNodup u2)
                rw [hh, hlkv] at h2
                injection h2 with h2
                refine hvcv ?_
                obtain ⟨a, b⟩ := vc
                simp only at hh h2
                rw [hh, h2]
              rcases hmid.cov u2 hu2 vc hvc (by
                  rintro ⟨_, hmem⟩
                  rcases List.mem_cons.mp hmem with h | h
                  · exact hvcv h
                  · exact hninrest h) with h | h
              · refine Or.inl ?_
                rw [updO_ne _ _ (fun hh => hvu hh.symm), updO_ne _ _ htne]
                exact h
              · obtain ⟨e, he, hedev, hek⟩ := h
                refine Or.inr ⟨e, List.mem_append_left _ he, hedev, ?_⟩
                rw [updO_ne _ _ (fun hh => hvu hh.symm)]
                exact hek
          · by_cases hu2v : u2 = v
            · subst hu2v
              refine Or.inr ⟨(d + c, counter + 1, u2), ?_, rfl, ?_⟩
              · exact List.mem_append_right _ (List.mem_singleton_self _)
              · intro x hx
                rw [hd2v] at hx
                injection hx with hx
                omega
            · rcases hmid.cov u2 hu2 vc hvc (fun hh => hu2u hh.1) with h | h
              · by_cases htv : vc.1 = v
                · refine Or.inl ?_
                  rw [updO_ne _ _ hu2v, htv, hd2v]
                  have hold := h
                  rw [htv] at hold
                  exact optLtB_trans_false hold (optLtB_asymm hcond)
                · refine Or.inl ?_
                  rw [updO_ne _ _ hu2v, updO_ne _ _ htv]
                  exact h
              · obtain ⟨e, he, hedev, hek⟩ := h
                refine Or.inr ⟨e, List.mem_append_left _ he, hedev, ?_⟩
                rw [updO_ne _ _ hu2v]
                exact hek
        · intro w u2 hpw
          by_cases hwv : w = v
          · subst hwv
            rw [updO_self] at hpw
            injection hpw with hpw
            subst hpw
            refine ⟨hun, hvn, hvs, c, hlkv, ⟨d + c, hd2v⟩, ?_, ?_⟩
            · intro du dv hdu3 hdv3
              rw [hdu2] at hdu3
              rw [hd2v] at hdv3
              injection hdu3 with hdu3
              injection hdv3 with hdv3
              omega
            · rw [hdu2]
              simp
          · rw [updO_ne _ _ hwv] at hpw
            obtain ⟨hu2n, hwn, hws, cc, hlk2, ⟨dw, hdw⟩, hge, hnn⟩ :=
              hmid.link w u2 hpw
            by_cases hu2v : u2 = v
            · subst hu2v
              obtain ⟨x, hx⟩ : ∃ x, dist u2 = some x := by
                cases hd : dist u2 with
                | none => exact absurd hd hnn
                | some x => exact ⟨x, rfl⟩
              have hxlt : d + c < x := by
                rw [hx] at hcond
                simp [optLtB] at hcond
                exact hcond
              refine ⟨hu2n, hwn, hws, cc, hlk2, ⟨dw, ?_⟩, ?_, ?_⟩
              · rw [updO_ne _ _ hwv]
                exact hdw
              · intro du dv hdu3 hdv3
                rw [hd2v] at hdu3
                rw [updO_ne _ _ hwv] at hdv3
                injection hdu3 with hdu3
                have hh := hge x dv hx hdv3
                omega
              · rw [hd2v]
                simp
            · refine ⟨hu2n, hwn, hws, cc, hlk2, ⟨dw, ?_⟩, ?_, ?_⟩
              · rw [updO_ne _ _ hwv]
                exact hdw
              · intro du dv hdu3 hdv3
                rw [updO_ne _ _ hu2v] at hdu3
                rw [updO_ne _ _ hwv] at hdv3
                exact hge du dv hdu3 hdv3
              · rw [updO_ne _ _ hu2v]
                exact hnn
        · obtain ⟨tm, now, hb, hord⟩ := hmid.tord
          refine ⟨updO tm v now, now + 1, ?_, ?_⟩
          · intro x
            by_cases hxv : x = v
            · subst hxv
              rw [updO_self]
              omega
            · rw [updO_ne _ _ hxv]
              have := hb x
              omega
          · intro w u2 hpw du dv hdu3 hdv3
            by_cases hwv : w = v
            · subst hwv
              rw [updO_self] at hpw
              injection hpw with hpw
              subst hpw
              rw [hdu2] at hdu3
              rw [hd2v] at hdv3
              injection hdu3 with hdu3
              injection hdv3 with hdv3
              subst hdu3
              subst hdv3
              by_cases hc0 : c = 0
              · subst hc0
                refine Or.inr ⟨by omega, ?_⟩
                rw [updO_ne _ _ (fun hh => hvu hh.symm), updO_self]
                exact hb u
              · exact Or.inl (by omega)
            · rw [updO_ne _ _ hwv] at hpw
              rw [updO_ne _ _ hwv] at hdv3
              by_cases hu2v : u2 = v
              · subst hu2v
                obtain ⟨hu2n, hwn2, hws2, cc, hlk2, hdvex, hge, hnn⟩ :=
                  hmid.link w u2 hpw
                obtain ⟨x, hx⟩ : ∃ x, dist u2 = some x := by
                  cases hd : dist u2 with
                  | none => exact absurd hd hnn
                  | some x => exact ⟨x, rfl⟩
                have hxlt : d + c < x := by
                  rw [hx] at hcond
                  simp [optLtB] at hcond
                  exact hcond
                rw [hd2v] at hdu3
                injection hdu3 with hdu3
                subst hdu3
                have hh := hge x dv hx hdv3
                exact Or.inl (by omega)
              · rw [updO_ne _ _ hu2v] at hdu3
                rcases hord w u2 hpw du dv hdu3 hdv3 with h | ⟨h1, h2⟩
                · exact Or.inl h
                · refine Or.inr ⟨h1, ?_⟩
                  rw [updO_ne _ _ hu2v, updO_ne _ _ hwv]
                  exact h2
      have hres := ih (counter + 1) (updO dist v (some (d + c)))
        (updO pred v (some u)) (q ++ [(d + c, counter + 1, v)]) hdu2
        (fun vc hvc => hsub vc (List.mem_cons_of_mem _ hvc)) hmid2
      simpa [List.append_assoc] using hres
    · rw [if_neg hcond]
      refine ih counter dist pred q hdu
        (fun vc hvc => hsub vc (List.mem_cons_of_mem _ hvc)) ?_
      refine ⟨hmid.dist_s, hmid.pred_s, hmid.snd, hmid.pnone, hmid.dev,
        hmid.key, ?_, hmid.link, hmid.tord⟩
      intro u2 hu2 vc hvc hnex
      by_cases hu2u : u2 = u
      · subst hu2u
        by_cases hvcv : vc = (v, c)
        · subst hvcv
          refine Or.inl ?_
          rw [hdu]
          exact Bool.not_eq_true _ ▸ (by simpa using hcond)
        · refine hmid.cov u2 hu2 vc hvc ?_
          rintro ⟨_, hmem⟩
          rcases List.mem_cons.mp hmem with h | h
          · exact hvcv h
          · exact hnex ⟨rfl, h⟩
      · refine hmid.cov u2 hu2 vc hvc ?_
        rintro ⟨hh, _⟩
        exact hu2u hh

theorem bfsGo_zero (adj : Nat → List (Nat × Nat)) (counter : Nat)
    (fila : List T.Entry) (dist pred : Nat → Option Nat) :
    T.bfsGo adj 0 counter fila dist pred =
      (if fila.isEmpty then some (dist, pred) else none) := rfl

theorem bfsGo_succ_none {adj : Nat → List (Nat × Nat)} {f counter : Nat}
    {fila : List T.Entry} {dist pred : Nat → Option Nat}
    (h : T.popMin fila = none) :
    T.bfsGo adj (Nat.succ f) counter fila dist pred = some (dist, pred) := by
  show (match T.popMin fila with
        | none => some (dist, pred)
        | some (e, rest) =>
          if T.distGtB e.1 (dist e.2.2) = true then
            T.bfsGo adj f counter rest dist pred
          else
            T.bfsGo adj f (T.relaxT e.2.2 e.1 (adj e.2.2) counter dist pred).counter
              (rest ++ (T.relaxT e.2.2 e.1 (adj e.2.2) counter dist pred).pushes)
              (T.relaxT e.2.2 e.1 (adj e.2.2) counter dist pred).dist
              (T.relaxT e.2.2 e.1 (adj e.2.2) counter dist pred).pred) = _
  rw [h]

theorem bfsGo_succ_pop {adj : Nat → List (Nat × Nat)} {f counter : Nat}
    {fila : List T.Entry} {dist pred : Nat → Option Nat} {e : T.Entry}
    {rest : List T.Entry} (h : T.popMin fila = some (e, rest)) :
    T.bfsGo adj (Nat.succ f) counter fila dist pred =
      (if T.distGtB e.1 (dist e.2.2) = true then
        T.bfsGo adj f counter rest dist pred
      else
        T.bfsGo adj f (T.relaxT e.2.2 e.1 (adj e.2.2) counter dist pred).counter
          (rest ++ (T.relaxT e.2.2 e.1 (adj e.2.2) counter dist pred).pushes)
          (T.relaxT e.2.2 e.1 (adj e.2.2) counter dist pred).dist
          (T.relaxT e.2.2 e.1 (adj e.2.2) counter dist pred).pred) := by
  show (match T.popMin fila with
        | none => some (dist, pred)
        | some (e, rest) =>
          if T.distGtB e.1 (dist e.2.2) = true then
            T.bfsGo adj f counter rest dist pred
          else
            T.bfsGo adj f (T.relaxT e.2.2 e.1 (adj e.2.2) counter dist pred).counter
              (rest ++ (T.relaxT e.2.2 e.1 (adj e.2.2) counter dist pred).pushes)
              (T.relaxT e.2.2 e.1 (adj e.2.2) counter dist pred).dist
              (T.relaxT e.2.2 e.1 (adj e.2.2) counter dist pred).pred) = _
  rw [h]

/-- The queue loop turns the invariant into the engine postcondition whenever
it finishes within its fuel. -/
theorem bfsGo_spout {adj : Nat → List (Nat × Nat)} {n s : Nat}
    (wf : GraphWF adj n) :
    ∀ (fuel counter : Nat) (fila : List T.Entry) (dist pred : Nat → Option Nat),
      BInv adj n s dist pred fila →
      ∀ res, T.bfsGo adj fuel counter fila dist pred = some res →
      SPOut adj n s res.1 res.2 := by
  intro fuel
  induction fuel with
  | zero =>
    intro counter fila dist pred binv res hres
    rw [bfsGo_zero] at hres
    by_cases hemp : fila.isEmpty
    · rw [if_pos hemp] at hres
      injection hres with hres
      subst hres
      rw [List.isEmpty_iff] at hemp
      subst hemp
      exact binv_empty_spout binv
    · rw [if_neg hemp] at hres
      exact absurd hres (by simp)
  | succ fuel ih =>
    intro counter fila dist pred binv res hres
    cases hpop : T.popMin fila with
    | none =>
      have hemp := (popMin_none_iff fila).mp hpop
      subst hemp
      rw [bfsGo_succ_none hpop] at hres
      injection hres with hres
      subst hres
      exact binv_empty_spout binv
    | some p =>
      obtain ⟨e, rest⟩ := p
      obtain ⟨d0, cnt0, u⟩ := e
      rw [bfsGo_succ_pop hpop] at hres
      have hperm := popMin_perm hpop
      by_cases hstale : T.distGtB d0 (dist u) = true
      · rw [if_pos hstale] at hres
        have binv2 : BInv adj n s dist pred rest := by
          refine ⟨binv.dist_s, binv.pred_s, binv.snd, binv.pnone, ?_, ?_, ?_,
            binv.link, binv.tord⟩
          · intro e2 he2
            exact binv.dev e2 (hperm.mem_iff.mpr (List.mem_cons_of_mem _ he2))
          · intro e2 he2
            exact binv.key e2 (hperm.mem_iff.mpr (List.mem_cons_of_mem _ he2))
          · intro u2 hu2 vc hvc
            rcases binv.cov u2 hu2 vc hvc with h | h
            · exact Or.inl h
            · obtain ⟨e2, he2, hedev, hek⟩ := h
              rcases List.mem_cons.mp (hperm.mem_iff.mp he2) with h2 | h2
              · subst h2
                obtain ⟨x, hx⟩ : ∃ x, dist u = some x := by
                  cases hd : dist u with
                  | none =>
                    rw [hd] at hstale
                    exact absurd hstale (by simp [T.distGtB])
                  | some x => exact ⟨x, rfl⟩
                have hlt : x < d0 := by
                  rw [hx] at hstale
                  simpa [T.distGtB] using hstale
                dsimp only at hedev
                rw [← hedev] at hek
                have := hek x hx
                omega
              · exact Or.inr ⟨e2, h2, hedev, hek⟩
        exact ih counter rest dist pred binv2 res hres
      · rw [if_neg hstale] at hres
        have hmemE : ((d0, cnt0, u) : T.Entry) ∈ fila :=
          hperm.mem_iff.mpr (List.mem_cons_self _ _)
        obtain ⟨x, hx, hxle⟩ := binv.key _ hmemE
        have hdu : dist u = some d0 := by
          have hnlt : ¬(x < d0) := by
            intro hh
            rw [hx] at hstale
            exact hstale (by simpa [T.distGtB] using hh)
          have hxd : x = d0 := by omega
          rw [hx, hxd]
        have hun : u < n := binv.dev _ hmemE
        have hmid : BMid adj n s u dist pred rest (adj u) := by
          refine ⟨binv.dist_s, binv.pred_s, binv.snd, binv.pnone, ?_, ?_, ?_,
            binv.link, binv.tord⟩
          · intro e2 he2
            exact binv.dev e2 (hperm.mem_iff.mpr (List.mem_cons_of_mem _ he2))
          · intro e2 he2
            exact binv.key e2 (hperm.mem_iff.mpr (List.mem_cons_of_mem _ he2))
          · intro u2 hu2 vc hvc hnex
            have hu2u : u2 ≠ u := by
              intro hh
              exact hnex ⟨hh, hh ▸ hvc⟩
            rcases binv.cov u2 hu2 vc hvc with h | h
            · exact Or.inl h
            · obtain ⟨e2, he2, hedev, hek⟩ := h
              rcases List.mem_cons.mp (hperm.mem_iff.mp he2) with h2 | h2
              · subst h2
                exact absurd hedev.symm (by simpa using hu2u)
              · exact Or.inr ⟨e2, h2, hedev, hek⟩
        have hbinv2 := relaxT_inv wf hun (adj u) counter dist pred rest hdu
          (fun _ h => h) hmid
        exact ih _ _ _ _ hbinv2 res hres

/-- `Rede.bfs` satisfies the engine postcondition whenever its queue loop
finishes within the given fuel. -/
theorem bfs_spout (r : T.Rede) (fuel s : Nat) (wf : T.WF r) (hs : s < r.n) :
    ∀ dp, r.bfsAux fuel s = some dp → SPOut r.adjOf r.n s dp.1 dp.2 := by
  intro dp h
  refine bfsGo_spout wf fuel 0 [(0, 0, s)]
    (updO (fun _ => none) s (some 0)) (fun _ => none) ?_ dp h
  refine ⟨updO_self _ _ _, rfl, ?_, ?_, ?_, ?_, ?_, ?_, ?_⟩
  · intro v d hv
    by_cases hvs : v = s
    · subst hvs
      rw [updO_self] at hv
      injection hv with hv
      subst hv
      exact reaches_nil _ _
    · rw [updO_ne _ _ hvs] at hv
      exact absurd hv (by simp)
  · intro v hvn hpred
    by_cases hvs : v = s
    · exact Or.inl hvs
    · exact Or.inr (updO_ne _ _ hvs)
  · intro e he
    rw [List.mem_singleton] at he
    subst he
    exact hs
  · intro e he
    rw [List.mem_singleton] at he
    subst he
    exact ⟨0, updO_self _ _ _, Nat.le_refl 0⟩
  · intro u hu vc hvc
    by_cases hus : u = s
    · subst hus
      refine Or.inr ⟨(0, 0, u), List.mem_singleton_self _, rfl, ?_⟩
      intro x hx
      omega
    · refine Or.inl ?_
      rw [updO_ne _ _ hus]
      rfl
  · intro v u hp
    exact absurd hp (by simp)
  · exact ⟨fun _ => 0, 1, fun x => Nat.zero_lt_one, fun v u hp => absurd hp (by simp)⟩

/-! ### Termination of the queue loop -/

theorem cntNone_update_le (n : Nat) (dist : Nat → Option Nat) (v y : Nat) :
    cntNone n (updO dist v (some y)) ≤ cntNone n dist := by
  apply Finset.card_le_card
  intro w hw
  rw [Finset.mem_filter] at hw ⊢
  refine ⟨hw.1, ?_⟩
  by_cases hwv : w = v
  · subst hwv
    rw [updO_self] at hw
    exact absurd hw.2 (by simp)
  · rw [updO_ne _ _ hwv] at hw
    exact hw.2

theorem cntNone_update_lt {n : Nat} {dist : Nat → Option Nat} {v : Nat} (y : Nat)
    (hv : v < n) (hnone : dist v = none) :
    cntNone n (updO dist v (some y)) < cntNone n dist := by
  apply Finset.card_lt_card
  constructor
  · intro w hw
    rw [Finset.mem_filter] at hw ⊢
    refine ⟨hw.1, ?_⟩
    by_cases hwv : w = v
    · subst hwv
      rw [updO_self] at hw
      exact absurd hw.2 (by simp)
    · rw [updO_ne _ _ hwv] at hw
      exact hw.2
  · intro hsub
    have hvmem : v ∈ (Finset.range n).filter (fun w => dist w = none) := by
      rw [Finset.mem_filter, Finset.mem_range]
      exact ⟨hv, hnone⟩
    have := hsub hvmem
    rw [Finset.mem_filter, updO_self] at this
    exact absurd this.2 (by simp)

theorem cntNone_update_eq {n : Nat} {dist : Nat → Option Nat} {v x : Nat}
    (y : Nat) (hx : dist v = some x) :
    cntNone n (updO dist v (some y)) = cntNone n dist := by
  unfold cntNone
  congr 1
  apply Finset.filter_congr
  intro w hw
  by_cases hwv : w = v
  · subst hwv
    rw [updO_self, hx]
    simp
  · rw [updO_ne _ _ hwv]

theorem sumFin_update_lt {n : Nat} {dist : Nat → Option Nat} {v x y : Nat}
    (hv : v < n) (hx : dist v = some x) (hy : y < x) :
    sumFin n (updO dist v (some y)) < sumFin n dist := by
  apply Finset.sum_lt_sum
  · intro w hw
    by_cases hwv : w = v
    · subst hwv
      rw [updO_self, hx]
      simp
      omega
    · rw [updO_ne _ _ hwv]
  · refine ⟨v, Finset.mem_range.mpr hv, ?_⟩
    rw [updO_self, hx]
    simp
    omega

/-- The relaxation loop never raises the infinite count and, whenever it
pushes at all, strictly lowers `(cntNone, sumFin)` lexicographically. -/
theorem relaxT_measure {n u d : Nat} :
    ∀ (rem : List (Nat × Nat)) (counter : Nat) (dist pred : Nat → Option Nat),
      (∀ vc ∈ rem, vc.1 < n) →
      cntNone n (T.relaxT u d rem counter dist pred).dist ≤ cntNone n dist ∧
      ((T.relaxT u d rem counter dist pred).pushes = [] →
        (T.relaxT u d rem counter dist pred).dist = dist ∧
        (T.relaxT u d rem counter dist pred).pred = pred) ∧
      ((T.relaxT u d rem counter dist pred).pushes ≠ [] →
        cntNone n (T.relaxT u d rem counter dist pred).dist < cntNone n dist ∨
        (cntNone n (T.relaxT u d rem counter dist pred).dist = cntNone n dist ∧
          sumFin n (T.relaxT u d rem counter dist pred).dist < sumFin n dist)) := by
  intro rem
  induction rem with
  | nil =>
    intro counter dist pred htgt
    exact ⟨Nat.le_refl _, fun _ => ⟨rfl, rfl⟩, fun h => absurd rfl h⟩
  | cons vc0 rest ih =>
    obtain ⟨v, c⟩ := vc0
    intro counter dist pred htgt
    have hvn : v < n := htgt (v, c) (List.mem_cons_self _ _)
    rw [relaxT_cons]
    by_cases hcond : optLtB (some (d + c)) (dist v) = true
    · rw [if_pos hcond]
      dsimp only
      obtain ⟨hle, hemp, hne⟩ := ih (counter + 1) (updO dist v (some (d + c)))
        (updO pred v (some u)) (fun vc hvc => htgt vc (List.mem_cons_of_mem _ hvc))
      cases hdv : dist v with
      | none =>
        have hlt := cntNone_update_lt (d + c) hvn hdv
        refine ⟨by omega, ?_, ?_⟩
        · intro hh
          exact absurd hh (by simp)
        · intro _
          exact Or.inl (by omega)
      | some x =>
        have hxlt : d + c < x := by
          rw [hdv] at hcond
          simpa [optLtB] using hcond
        have heq := @cntNone_update_eq n dist v x (d + c) hdv
        have hslt := sumFin_update_lt hvn hdv hxlt
        refine ⟨by omega, ?_, ?_⟩
        · intro hh
          exact absurd hh (by simp)
        · intro _
          rcases Classical.em ((T.relaxT u d rest (counter + 1)
              (updO dist v (some (d + c))) (updO pred v (some u))).pushes = []) with
            hp | hp
          · obtain ⟨hd2, _⟩ := hemp hp
            rw [hd2]
            exact Or.inr ⟨by omega, by omega⟩
          · rcases hne hp with h | ⟨h1, h2⟩
            · exact Or.inl (by omega)
            · exact Or.inr ⟨by omega, by omega⟩
    · rw [if_neg hcond]
      exact ih counter dist pred (fun vc hvc => htgt vc (List.mem_cons_of_mem _ hvc))

/-- Every pass of the queue loop strictly decreases
`(cntNone, sumFin, |fila|)` lexicographically, so some fuel drains the
queue. -/
theorem bfsGo_total {adj : Nat → List (Nat × Nat)} {n : Nat}
    (wf : GraphWF adj n) :
    ∀ (a b c counter : Nat) (fila : List T.Entry) (dist pred : Nat → Option Nat),
      cntNone n dist ≤ a → sumFin n dist ≤ b → fila.length ≤ c →
      ∃ f, (T.bfsGo adj f counter fila dist pred).isSome := by
  intro a
  induction a using Nat.strong_induction_on with
  | _ a iha =>
    intro b
    induction b using Nat.strong_induction_on with
    | _ b ihb =>
      intro c
      induction c using Nat.strong_induction_on with
      | _ c ihc =>
        intro counter fila dist pred hca hcb hcc
        cases hpop : T.popMin fila with
        | none =>
          refine ⟨1, ?_⟩
          rw [bfsGo_succ_none hpop]
          rfl
        | some p =>
          obtain ⟨e, rest⟩ := p
          obtain ⟨d0, cnt0, u⟩ := e
          have hlenf : fila.length = rest.length + 1 := by
            have := (popMin_perm hpop).length_eq
            simpa using this
          by_cases hstale : T.distGtB d0 (dist u) = true
          · obtain ⟨f, hf⟩ := ihc rest.length (by omega) counter rest dist pred
              hca hcb (Nat.le_refl _)
            refine ⟨f + 1, ?_⟩
            rw [bfsGo_succ_pop hpop, if_pos hstale]
            exact hf
          · have htgt : ∀ vc ∈ adj u, vc.1 < n := fun vc hvc => wf.tgt u vc hvc
            obtain ⟨hle, hemp, hne⟩ := relaxT_measure (adj u) counter dist pred htgt
            rcases Classical.em ((T.relaxT u d0 (adj u) counter dist pred).pushes
                = []) with hp | hp
            · obtain ⟨hd2, hp2⟩ := hemp hp
              obtain ⟨f, hf⟩ := ihc rest.length (by omega)
                (T.relaxT u d0 (adj u) counter dist pred).counter rest dist pred
                hca hcb (Nat.le_refl _)
              refine ⟨f + 1, ?_⟩
              rw [bfsGo_succ_pop hpop, if_neg hstale]
              dsimp only
              rw [hp, List.append_nil, hd2, hp2]
              exact hf
            · rcases hne hp with h | ⟨h1, h2⟩
              · obtain ⟨f, hf⟩ := iha
                  (cntNone n (T.relaxT u d0 (adj u) counter dist pred).dist)
                  (by omega)
                  (sumFin n (T.relaxT u d0 (adj u) counter dist pred).dist)
                  (rest ++ (T.relaxT u d0 (adj u) counter dist pred).pushes).length
                  (T.relaxT u d0 (adj u) counter dist pred).counter
                  (rest ++ (T.relaxT u d0 (adj u) counter dist pred).pushes)
                  (T.relaxT u d0 (adj u) counter dist pred).dist
                  (T.relaxT u d0 (adj u) counter dist pred).pred
                  (Nat.le_refl _) (Nat.le_refl _) (Nat.le_refl _)
                refine ⟨f + 1, ?_⟩
                rw [bfsGo_succ_pop hpop, if_neg hstale]
                dsimp only
                exact hf
              · obtain ⟨f, hf⟩ := ihb
                  (sumFin n (T.relaxT u d0 (adj u) counter dist pred).dist)
                  (by omega)
                  (rest ++ (T.relaxT u d0 (adj u) counter dist pred).pushes).length
                  (T.relaxT u d0 (adj u) counter dist pred).counter
                  (rest ++ (T.relaxT u d0 (adj u) counter dist pred).pushes)
                  (T.relaxT u d0 (adj u) counter dist pred).dist
                  (T.relaxT u d0 (adj u) counter dist pred).pred
                  (by omega) (Nat.le_refl _) (Nat.le_refl _)
                refine ⟨f + 1, ?_⟩
                rw [bfsGo_succ_pop hpop, if_neg hstale]
                dsimp only
                exact hf

/-- The queue loop of `Rede.bfs` terminates: some fuel suffices on every
topology. -/
theorem bfs_total (r : T.Rede) (s : Nat) (wf : T.WF r) :
    ∃ fuel, (r.bfsAux fuel s).isSome := by
  exact bfsGo_total wf (cntNone r.n (updO (fun _ => none) s (some 0)))
    (sumFin r.n (updO (fun _ => none) s (some 0))) 1 0 [(0, 0, s)]
    (updO (fun _ => none) s (some 0)) (fun _ => none)
    (Nat.le_refl _) (Nat.le_refl _) (by simp)

/-! ### Well-formedness of concrete topologies -/

theorem mem_of_getElemQ {α} {l : List α} {u : Nat} {d : α}
    (hd : l[u]? = some d) : d ∈ l := by
  induction l generalizing u with
  | nil => exact absurd hd (by simp)
  | cons a t ih =>
    cases u with
    | zero =>
      simp only [List.getElem?_cons_zero, Option.some.injEq] at hd
      rw [← hd]
      exact List.mem_cons_self a t
    | succ u =>
      rw [List.getElem?_cons_succ] at hd
      exact List.mem_cons_of_mem a (ih hd)

theorem wfR_of_devices (r : R.Rede)
    (h : ∀ d ∈ r.dispositivos, (∀ p ∈ d.vizinhos, p.1 < r.n) ∧
      ((d.vizinhos.map Prod.fst).Nodup)) : R.WF r := by
  refine ⟨?_, ?_, ?_⟩
  · intro u hu
    unfold R.Rede.adjOf
    rw [List.getElem?_eq_none hu]
    rfl
  · intro u vc hvc
    unfold R.Rede.adjOf at hvc
    cases hd : r.dispositivos[u]? with
    | none =>
      rw [hd] at hvc
      exact absurd hvc (by simp)
    | some d =>
      rw [hd] at hvc
      simp only [Option.map_some', Option.getD_some, List.mem_map] at hvc
      obtain ⟨p, hp, hpe⟩ := hvc
      have := (h d (mem_of_getElemQ hd)).1 p hp
      rw [← hpe] at *
      exact this
  · intro u
    unfold R.Rede.adjOf
    cases hd : r.dispositivos[u]? with
    | none => simp
    | some d =>
      simp only [Option.map_some', Option.getD_some, List.map_map]
      have : (Prod.fst ∘ fun p : Nat × Link => (p.1, p.2.custo)) = Prod.fst := by
        funext p
        rfl
      rw [this]
      exact (h d (mem_of_getElemQ hd)).2

theorem wfT_of_devices (r : T.Rede)
    (h : ∀ d ∈ r.dispositivos, (∀ p ∈ d.vizinhos, p.1 < r.n) ∧
      ((d.vizinhos.map Prod.fst).Nodup)) : T.WF r := by
  refine ⟨?_, ?_, ?_⟩
  · intro u hu
    unfold T.Rede.adjOf
    rw [List.getElem?_eq_none hu]
    rfl
  · intro u vc hvc
    unfold T.Rede.adjOf at hvc
    cases hd : r.dispositivos[u]? with
    | none =>
      rw [hd] at hvc
      exact absurd hvc (by simp)
    | some d =>
      rw [hd] at hvc
      simp only [Option.map_some', Option.getD_some, List.mem_map] at hvc
      obtain ⟨p, hp, hpe⟩ := hvc
      have := (h d (mem_of_getElemQ hd)).1 p hp
      rw [← hpe] at *
      exact this
  · intro u
    unfold T.Rede.adjOf
    cases hd : r.dispositivos[u]? with
    | none => simp
    | some d =>
      simp only [Option.map_some', Option.getD_some, List.map_map]
      have : (Prod.fst ∘ fun p : Nat × Link => (p.1, p.2.custo)) = Prod.fst := by
        funext p
        rfl
      rw [this]
      exact (h d (mem_of_getElemQ hd)).2

/-- C1: for every well-formed topology and source, the predecessor map
returned by the shortest-path engine (`Rede.dijkstra` of rede.py, `Rede.bfs`
of topologia.py) satisfies `PredOK`: the predecessor is `none` exactly for
the source and the unreachable devices, and for every reachable device the
path reconstructed through predecessors is a walk from the source whose
cumulative cost is the least cost of any walk there (so of two alternative
paths of costs 5 and 3, the cost-3 one is encoded). -/
theorem claim1_shortest_paths :
    (∀ (r : R.Rede) (s : Nat), R.WF r → s < r.n →
      PredOK r.adjOf r.n s (r.dijkstra s).2) ∧
    (∀ (r : T.Rede) (fuel s : Nat), T.WF r → s < r.n →
      ∀ dp, r.bfsAux fuel s = some dp → PredOK r.adjOf r.n s dp.2) := by
  constructor
  · intro r s wf hs
    exact spout_predOK (dijkstra_spout r s wf hs) wf
  · intro r fuel s wf hs dp h
    exact spout_predOK (bfs_spout r fuel s wf hs dp h) wf

theorem claim1_shortest_paths_witness :
    PredOK exR53.adjOf exR53.n 0 (exR53.dijkstra 0).2 ∧
    PredOK exTR.adjOf exTR.n 0
      (((exTR.bfsAux 12 0).getD (fun _ => none, fun _ => none)).2) :=
  ⟨claim1_shortest_paths.1 exR53 0 (wfR_of_devices exR53 (by decide))
      (by decide),
   claim1_shortest_paths.2 exTR 12 0 (wfT_of_devices exTR (by decide))
      (by decide) ((exTR.bfsAux 12 0).getD (fun _ => none, fun _ => none))
      (by rfl)⟩

/-- C9: the shortest-path computations terminate on every finite topology
with natural-number edge costs (zero-cost edges included).  For rede.py,
`while nao_visitados:` runs at most `n` iterations: giving the loop any fuel
of at least `n` yields exactly `Rede.dijkstra`.  For topologia.py, the
heap loop of `Rede.bfs` drains: some finite fuel makes it return. -/
theorem claim9_termination :
    (∀ (r : R.Rede) (s f : Nat), r.n ≤ f →
      R.dijkstraGo r.adjOf f (List.range r.n)
          (updO (fun _ => none) s (some 0)) (fun _ => none) =
        r.dijkstra s) ∧
    (∀ (r : T.Rede) (s : Nat), T.WF r →
      ∃ fuel, (r.bfsAux fuel s).isSome) := by
  constructor
  · intro r s f hf
    show _ = R.dijkstraGo r.adjOf r.n (List.range r.n)
      (updO (fun _ => none) s (some 0)) (fun _ => none)
    have hlen : (List.range r.n).length ≤ f := by
      rw [List.length_range]
      exact hf
    rw [dijkstraGo_fuel_stable f (List.range r.n) _ _ hlen,
      List.length_range]
  · intro r s wf
    exact bfs_total r s wf

theorem claim9_termination_witness :
    (R.dijkstraGo exR53.adjOf 7 (List.range exR53.n)
        (updO (fun _ => none) 0 (some 0)) (fun _ => none) =
      exR53.dijkstra 0) ∧
    ∃ fuel, (exTR.bfsAux fuel 0).isSome :=
  ⟨claim9_termination.1 exR53 0 7 (by decide),
   claim9_termination.2 exTR 0 (wfT_of_devices exTR (by decide))⟩

/-! ### Next-hop adjacency of the rebuilt routing tables -/

theorem nextHopWalk_pred {ant : Nat → Option Nat} {disp : Nat} :
    ∀ (f p q : Nat), T.nextHopWalk ant disp f p = some q →
      ant q = some disp := by
  intro f
  induction f with
  | zero =>
    intro p q h
    exact absurd h (by simp [T.nextHopWalk])
  | succ f ih =>
    intro p q h
    have h2 : (match ant p with
        | some w => if w = disp then some p else T.nextHopWalk ant disp f w
        | none => none) = some q := h
    cases hp : ant p with
    | some w =>
      rw [hp] at h2
      dsimp only at h2
      by_cases hw : w = disp
      · rw [if_pos hw] at h2
        injection h2 with h3
        subst h3
        rw [hp, hw]
      · rw [if_neg hw] at h2
        exact ih w q h2
    | none =>
      rw [hp] at h2
      exact absurd h2 (by simp)

theorem mem_upsert {κ β : Type} [DecidableEq κ] :
    ∀ (l : List (κ × β)) (k : κ) (v : β) (e : κ × β),
      e ∈ upsert l k v → e = (k, v) ∨ e ∈ l := by
  intro l
  induction l with
  | nil =>
    intro k v e h
    simp only [upsert, List.mem_singleton] at h
    exact Or.inl h
  | cons a t ih =>
    intro k v e h
    obtain ⟨k1, v1⟩ := a
    simp only [upsert] at h
    by_cases hk : k1 = k
    · rw [if_pos hk] at h
      rcases List.mem_cons.mp h with h1 | h1
      · exact Or.inl h1
      · exact Or.inr (List.mem_cons_of_mem _ h1)
    · rw [if_neg hk] at h
      rcases List.mem_cons.mp h with h1 | h1
      · exact Or.inr (h1 ▸ List.mem_cons_self _ _)
      · rcases ih k v e h1 with h2 | h2
        · exact Or.inl h2
        · exact Or.inr (List.mem_cons_of_mem _ h2)

theorem lookupC_map_key {κ β γ : Type} [DecidableEq κ] :
    ∀ (l : List (κ × β)) (f : κ × β → γ) (k : κ) (c : γ),
      lookupC (l.map (fun q => (q.1, f q))) k = some c →
      ∃ v, lookupC l k = some v := by
  intro l
  induction l with
  | nil =>
    intro f k c h
    exact absurd h (by simp [lookupC])
  | cons a t ih =>
    intro f k c h
    obtain ⟨k1, v1⟩ := a
    simp only [List.map_cons, lookupC] at h ⊢
    by_cases hk : k1 = k
    · rw [if_pos hk]
      exact ⟨v1, rfl⟩
    · rw [if_neg hk] at h ⊢
      exact ih f k c h

theorem lookup_adjOf_T {r : T.Rede} {u p c : Nat}
    (h : lookupC (r.adjOf u) p = some c) :
    ∃ l, lookupC ((r.dev u).vizinhos) p = some l := by
  unfold T.Rede.adjOf at h
  cases hd : r.dispositivos[u]? with
  | none =>
    rw [hd] at h
    exact absurd h (by simp [lookupC])
  | some d =>
    rw [hd] at h
    simp only [Option.map_some', Option.getD_some] at h
    have : r.dev u = d := by
      unfold T.Rede.dev
      rw [hd]
      rfl
    rw [this]
    exact lookupC_map_key d.vizinhos (fun q => q.2.custo) p c h

theorem setTabela_n (r : T.Rede) (i : Nat) (tab : List (String × T.TEntry)) :
    (T.setTabela r i tab).n = r.n := by
  show (R.modifyIdx r.dispositivos i
    (fun d => { d with tabela := some tab })).length = r.dispositivos.length
  exact modifyIdx_length _ _ _

theorem setTabela_dev_ne {r : T.Rede} {i x : Nat}
    (tab : List (String × T.TEntry)) (h : x ≠ i) :
    (T.setTabela r i tab).dev x = r.dev x := by
  show ((R.modifyIdx r.dispositivos i
      (fun d => { d with tabela := some tab }))[x]?).getD default =
    (r.dispositivos[x]?).getD default
  rw [modifyIdx_get_ne _ _ h]

theorem setTabela_dev_self {r : T.Rede} {i : Nat}
    (tab : List (String × T.TEntry)) (h : i < r.n) :
    (T.setTabela r i tab).dev i = { r.dev i with tabela := some tab } := by
  show ((R.modifyIdx r.dispositivos i
      (fun d => { d with tabela := some tab }))[i]?).getD default =
    { (r.dispositivos[i]?).getD default with tabela := some tab }
  rw [modifyIdx_get_self]
  cases hd : r.dispositivos[i]? with
  | none =>
    rw [List.getElem?_eq_getElem h] at hd
    exact absurd hd (by simp)
  | some d => rfl

theorem setTabela_adjOf (r : T.Rede) (i : Nat)
    (tab : List (String × T.TEntry)) :
    (T.setTabela r i tab).adjOf = r.adjOf := by
  funext u
  show (((R.modifyIdx r.dispositivos i
      (fun d => { d with tabela := some tab }))[u]?).map
      (fun d => d.vizinhos.map (fun p => (p.1, p.2.custo)))).getD [] =
    ((r.dispositivos[u]?).map
      (fun d => d.vizinhos.map (fun p => (p.1, p.2.custo)))).getD []
  by_cases hu : u = i
  · subst hu
    rw [modifyIdx_get_self]
    cases hd : r.dispositivos[u]? with
    | none => rfl
    | some d => rfl
  · rw [modifyIdx_get_ne _ _ hu]

theorem setTabela_WF {r : T.Rede} {i : Nat}
    {tab : List (String × T.TEntry)} (wf : T.WF r) :
    T.WF (T.setTabela r i tab) := by
  unfold T.WF
  rw [setTabela_adjOf, setTabela_n]
  exact wf

theorem buildRows_mem {r : T.Rede} {di : Nat} {ant : Nat → Option Nat} :
    ∀ (dests : List Nat) (acc : List (String × T.TEntry))
      (e : String × T.TEntry), e ∈ T.buildRows r di ant dests acc →
      e ∈ acc ∨ ∃ p dest, T.nextHopWalk ant di r.n dest = some p ∧
        e.2 = { destino := (r.dev dest).nome, proximo := (r.dev p).nome,
                ipProximo := (r.dev p).ip } := by
  intro dests
  induction dests with
  | nil =>
    intro acc e h
    exact Or.inl h
  | cons dest rest ih =>
    intro acc e h
    have h2 : T.buildRows r di ant (dest :: rest) acc =
        (if (r.dev dest).subnet ≠ "" ∧ dest ≠ di then
          (match T.nextHopWalk ant di r.n dest with
           | some p => T.buildRows r di ant rest (upsert acc (r.dev dest).subnet
               { destino := (r.dev dest).nome, proximo := (r.dev p).nome,
                 ipProximo := (r.dev p).ip })
           | none => T.buildRows r di ant rest acc)
        else T.buildRows r di ant rest acc) := rfl
    rw [h2] at h
    by_cases hc : (r.dev dest).subnet ≠ "" ∧ dest ≠ di
    · rw [if_pos hc] at h
      cases hw : T.nextHopWalk ant di r.n dest with
      | some p =>
        rw [hw] at h
        dsimp only at h
        rcases ih _ e h with h1 | h1
        · rcases mem_upsert _ _ _ _ h1 with h3 | h3
          · refine Or.inr ⟨p, dest, hw, ?_⟩
            rw [h3]
          · exact Or.inl h3
        · exact Or.inr h1
      | none =>
        rw [hw] at h
        dsimp only at h
        rcases ih _ e h with h1 | h1
        · exact Or.inl h1
        · exact Or.inr h1
    · rw [if_neg hc] at h
      rcases ih _ e h with h1 | h1
      · exact Or.inl h1
      · exact Or.inr h1

theorem mostrarAux_ok (fuel : Nat) :
    ∀ (rem : List Nat) (r r2 : T.Rede), T.WF r →
      (∀ j, j ∈ rem → j < r.n) →
      T.mostrarAux fuel r rem = some r2 →
      ((∀ x, (r2.dev x).nome = (r.dev x).nome ∧
          (r2.dev x).ip = (r.dev x).ip ∧
          (r2.dev x).vizinhos = (r.dev x).vizinhos ∧
          (r2.dev x).tipo = (r.dev x).tipo) ∧
        r2.n = r.n ∧
        (∀ j, j ∉ rem → (r2.dev j).tabela = (r.dev j).tabela) ∧
        (∀ j, j ∈ rem → (r.dev j).tipo = "roteador" →
          ∀ tab, (r2.dev j).tabela = some tab → ∀ e, e ∈ tab →
            ∃ p, (∃ c, lookupC (r.adjOf j) p = some c) ∧
              e.2.proximo = (r.dev p).nome ∧
              e.2.ipProximo = (r.dev p).ip)) := by
  intro rem
  induction rem with
  | nil =>
    intro r r2 wf hb h
    have h2 : some r = some r2 := h
    injection h2 with h3
    subst h3
    refine ⟨fun x => ⟨rfl, rfl, rfl, rfl⟩, rfl, fun j _ => rfl, ?_⟩
    intro j hj
    exact absurd hj (List.not_mem_nil j)
  | cons i rest ih =>
    intro r r2 wf hb h
    have hi : i < r.n := hb i (List.mem_cons_self i rest)
    have hstep : T.mostrarAux fuel r (i :: rest) =
        (if (r.dev i).tipo = "roteador" then
          match r.bfsAux fuel i with
          | none => none
          | some dp => T.mostrarAux fuel
              (T.setTabela r i (T.buildRows r i dp.2 (List.range r.n) [])) rest
        else T.mostrarAux fuel r rest) := rfl
    rw [hstep] at h
    by_cases hc : (r.dev i).tipo = "roteador"
    · rw [if_pos hc] at h
      cases hbfs : r.bfsAux fuel i with
      | none =>
        rw [hbfs] at h
        exact absurd h (by simp)
      | some dp =>
        rw [hbfs] at h
        dsimp only at h
        have hskel : ∀ x,
            ((T.setTabela r i
                (T.buildRows r i dp.2 (List.range r.n) [])).dev x).nome =
              (r.dev x).nome ∧
            ((T.setTabela r i
                (T.buildRows r i dp.2 (List.range r.n) [])).dev x).ip =
              (r.dev x).ip ∧
            ((T.setTabela r i
                (T.buildRows r i dp.2 (List.range r.n) [])).dev x).vizinhos =
              (r.dev x).vizinhos ∧
            ((T.setTabela r i
                (T.buildRows r i dp.2 (List.range r.n) [])).dev x).tipo =
              (r.dev x).tipo := by
          intro x
          by_cases hx : x = i
          · subst hx
            rw [setTabela_dev_self _ hi]
            exact ⟨rfl, rfl, rfl, rfl⟩
          · rw [setTabela_dev_ne _ hx]
            exact ⟨rfl, rfl, rfl, rfl⟩
        have hb' : ∀ j, j ∈ rest →
            j < (T.setTabela r i
              (T.buildRows r i dp.2 (List.range r.n) [])).n := by
          intro j hj
          rw [setTabela_n]
          exact hb j (List.mem_cons_of_mem i hj)
        obtain ⟨skel2, hn2, tab3, tab4⟩ :=
          ih (T.setTabela r i (T.buildRows r i dp.2 (List.range r.n) [])) r2
            (setTabela_WF wf) hb' h
        refine ⟨?_, ?_, ?_, ?_⟩
        · intro x
          obtain ⟨a1, a2, a3, a4⟩ := skel2 x
          obtain ⟨b1, b2, b3, b4⟩ := hskel x
          exact ⟨a1.trans b1, a2.trans b2, a3.trans b3, a4.trans b4⟩
        · rw [hn2, setTabela_n]
        · intro j hj
          have hj1 : j ≠ i := fun hh => hj (hh ▸ List.mem_cons_self i rest)
          have hj2 : j ∉ rest := fun hh => hj (List.mem_cons_of_mem i hh)
          rw [tab3 j hj2, setTabela_dev_ne _ hj1]
        · intro j hj hr tab htab e he
          by_cases hjr : j ∈ rest
          · have hr' : ((T.setTabela r i
                (T.buildRows r i dp.2 (List.range r.n) [])).dev j).tipo =
                "roteador" := by
              rw [(hskel j).2.2.2]
              exact hr
            obtain ⟨p, ⟨c, hlk⟩, hn, hip⟩ := tab4 j hjr hr' tab htab e he
            rw [setTabela_adjOf] at hlk
            refine ⟨p, ⟨c, hlk⟩, ?_, ?_⟩
            · rw [hn, (hskel p).1]
            · rw [hip, (hskel p).2.1]
          · have hji : j = i := by
              rcases List.mem_cons.mp hj with h1 | h1
              · exact h1
              · exact absurd h1 hjr
            subst hji
            have htab0 : (r2.dev j).tabela =
                some (T.buildRows r j dp.2 (List.range r.n) []) := by
              rw [tab3 j hjr, setTabela_dev_self _ hi]
            rw [htab] at htab0
            injection htab0 with htab1
            rw [htab1] at he
            rcases buildRows_mem (List.range r.n) [] e he with h1 | h1
            · exact absurd h1 (List.not_mem_nil e)
            · obtain ⟨p, dest, hw, he2⟩ := h1
              have hant : dp.2 p = some j := nextHopWalk_pred _ _ _ hw
              have spout := bfs_spout r fuel j wf hi dp hbfs
              obtain ⟨_, _, _, c, du, hlk, _, _⟩ := spout.link p j hant
              refine ⟨p, ⟨c, hlk⟩, ?_, ?_⟩
              · rw [he2]
              · rw [he2]
    · rw [if_neg hc] at h
      obtain ⟨skel2, hn2, tab3, tab4⟩ := ih r r2 wf
        (fun j hj => hb j (List.mem_cons_of_mem i hj)) h
      refine ⟨skel2, hn2, ?_, ?_⟩
      · intro j hj
        exact tab3 j (fun hh => hj (List.mem_cons_of_mem i hh))
      · intro j hj hr tab htab e he
        rcases List.mem_cons.mp hj with h1 | h1
        · subst h1
          exact absurd hr hc
        · exact tab4 j h1 hr tab htab e he

/-- After topologia.py's rebuild (`Rede.mostrar_tabelas_roteamento`), every
entry of every router's table stores as next hop a direct neighbor of that
router — a key of its neighbor map — and the stored name and address are
that neighbor's. -/
theorem mostrarTabelas_next_hop :
    ∀ (r : T.Rede) (fuel : Nat) (r2 : T.Rede), T.WF r →
      r.mostrarTabelas fuel = some r2 →
      ∀ i, i < r2.n → (r2.dev i).tipo = "roteador" →
        ∀ tab, (r2.dev i).tabela = some tab → ∀ e, e ∈ tab →
          ∃ p, (∃ l, lookupC ((r2.dev i).vizinhos) p = some l) ∧
            e.2.proximo = (r2.dev p).nome ∧
            e.2.ipProximo = (r2.dev p).ip := by
  intro r fuel r2 wf h i hi hr tab htab e he
  have h2 : T.mostrarAux fuel r (List.range r.n) = some r2 := h
  obtain ⟨skel, hn, _, tab4⟩ := mostrarAux_ok fuel (List.range r.n) r r2 wf
    (fun j hj => List.mem_range.mp hj) h2
  have hi' : i < r.n := by
    rw [← hn]
    exact hi
  have hr' : (r.dev i).tipo = "roteador" := by
    rw [← (skel i).2.2.2]
    exact hr
  obtain ⟨p, ⟨c, hlk⟩, hnm, hip⟩ :=
    tab4 i (List.mem_range.mpr hi') hr' tab htab e he
  obtain ⟨l, hl⟩ := lookup_adjOf_T hlk
  refine ⟨p, ⟨l, ?_⟩, ?_, ?_⟩
  · rw [(skel i).2.2.1]
    exact hl
  · rw [hnm, ← (skel p).1]
  · rw [hip, ← (skel p).2.1]
/-! ### Next-hop adjacency for rede.py's table builder -/

theorem nextHopWalkR_pred {ant : Nat → Option Nat} {disp : Nat} :
    ∀ (f p q : Nat), R.nextHopWalk ant disp f p = some q →
      ant q = some disp := by
  intro f
  induction f with
  | zero =>
    intro p q h
    exact absurd h (by simp [R.nextHopWalk])
  | succ f ih =>
    intro p q h
    have h2 : (match ant p with
        | some w => if w = disp then some p else R.nextHopWalk ant disp f w
        | none => none) = some q := h
    cases hp : ant p with
    | some w =>
      rw [hp] at h2
      dsimp only at h2
      by_cases hw : w = disp
      · rw [if_pos hw] at h2
        injection h2 with h3
        subst h3
        rw [hp, hw]
      · rw [if_neg hw] at h2
        exact ih w q h2
    | none =>
      rw [hp] at h2
      exact absurd h2 (by simp)

theorem buildRowsR_mem {r : R.Rede} {di : Nat} {ant : Nat → Option Nat} :
    ∀ (dests : List Nat) (acc tab : List (String × String)),
      R.buildRows r di ant dests acc = some tab →
      ∀ e, e ∈ tab → e ∈ acc ∨
        ∃ p dest, R.nextHopWalk ant di r.n dest = some p ∧
          e.2 = (r.dev p).ip := by
  intro dests
  induction dests with
  | nil =>
    intro acc tab h e he
    injection h with h2
    subst h2
    exact Or.inl he
  | cons dest rest ih =>
    intro acc tab h e he
    have h2 : (if dest ≠ di ∧ (ant dest).isSome then
        (match R.nextHopWalk ant di r.n dest with
         | some p => R.buildRows r di ant rest
             (upsert acc (r.dev dest).ip (r.dev p).ip)
         | none => none)
      else R.buildRows r di ant rest acc) = some tab := h
    by_cases hc : dest ≠ di ∧ (ant dest).isSome
    · rw [if_pos hc] at h2
      cases hw : R.nextHopWalk ant di r.n dest with
      | some p =>
        rw [hw] at h2
        dsimp only at h2
        rcases ih _ _ h2 e he with h1 | h1
        · rcases mem_upsert _ _ _ _ h1 with h3 | h3
          · refine Or.inr ⟨p, dest, hw, ?_⟩
            rw [h3]
          · exact Or.inl h3
        · exact Or.inr h1
      | none =>
        rw [hw] at h2
        exact absurd h2 (by simp)
    · rw [if_neg hc] at h2
      rcases ih _ _ h2 e he with h1 | h1
      · exact Or.inl h1
      · exact Or.inr h1

theorem setTabelaR_n (r : R.Rede) (i : Nat) (tab : List (String × String)) :
    (R.setTabela r i tab).n = r.n := by
  show (R.modifyIdx r.dispositivos i
    (fun d => { d with tabela := tab })).length = r.dispositivos.length
  exact modifyIdx_length _ _ _

theorem setTabelaR_dev_ne {r : R.Rede} {i x : Nat}
    (tab : List (String × String)) (h : x ≠ i) :
    (R.setTabela r i tab).dev x = r.dev x := by
  show ((R.modifyIdx r.dispositivos i
      (fun d => { d with tabela := tab }))[x]?).getD default =
    (r.dispositivos[x]?).getD default
  rw [modifyIdx_get_ne _ _ h]

theorem setTabelaR_dev_self {r : R.Rede} {i : Nat}
    (tab : List (String × String)) (h : i < r.n) :
    (R.setTabela r i tab).dev i = { r.dev i with tabela := tab } := by
  show ((R.modifyIdx r.dispositivos i
      (fun d => { d with tabela := tab }))[i]?).getD default =
    { (r.dispositivos[i]?).getD default with tabela := tab }
  rw [modifyIdx_get_self]
  cases hd : r.dispositivos[i]? with
  | none =>
    rw [List.getElem?_eq_getElem h] at hd
    exact absurd hd (by simp)
  | some d => rfl

theorem setTabelaR_adjOf (r : R.Rede) (i : Nat)
    (tab : List (String × String)) :
    (R.setTabela r i tab).adjOf = r.adjOf := by
  funext u
  show (((R.modifyIdx r.dispositivos i
      (fun d => { d with tabela := tab }))[u]?).map
      (fun d => d.vizinhos.map (fun p => (p.1, p.2.custo)))).getD [] =
    ((r.dispositivos[u]?).map
      (fun d => d.vizinhos.map (fun p => (p.1, p.2.custo)))).getD []
  by_cases hu : u = i
  · subst hu
    rw [modifyIdx_get_self]
    cases hd : r.dispositivos[u]? with
    | none => rfl
    | some d => rfl
  · rw [modifyIdx_get_ne _ _ hu]

theorem setTabelaR_WF {r : R.Rede} {i : Nat}
    {tab : List (String × String)} (wf : R.WF r) :
    R.WF (R.setTabela r i tab) := by
  unfold R.WF
  rw [setTabelaR_adjOf, setTabelaR_n]
  exact wf

theorem lookup_adjOf_R {r : R.Rede} {u p c : Nat}
    (h : lookupC (r.adjOf u) p = some c) :
    ∃ l, lookupC ((r.dev u).vizinhos) p = some l := by
  unfold R.Rede.adjOf at h
  cases hd : r.dispositivos[u]? with
  | none =>
    rw [hd] at h
    exact absurd h (by simp [lookupC])
  | some d =>
    rw [hd] at h
    simp only [Option.map_some', Option.getD_some] at h
    have : r.dev u = d := by
      unfold R.Rede.dev
      rw [hd]
      rfl
    rw [this]
    exact lookupC_map_key d.vizinhos (fun q => q.2.custo) p c h

theorem construirAux_ok :
    ∀ (rem : List Nat) (r r2 : R.Rede), R.WF r →
      (∀ j, j ∈ rem → j < r.n) →
      R.construirAux r rem = some r2 →
      ((∀ x, (r2.dev x).ip = (r.dev x).ip ∧
          (r2.dev x).vizinhos = (r.dev x).vizinhos ∧
          (r2.dev x).tipo = (r.dev x).tipo) ∧
        r2.n = r.n ∧
        (∀ j, j ∉ rem → (r2.dev j).tabela = (r.dev j).tabela) ∧
        (∀ j, j ∈ rem → (r.dev j).tipo = "roteador" →
          ∀ e, e ∈ (r2.dev j).tabela → e ∈ (r.dev j).tabela ∨
            ∃ p, (∃ c, lookupC (r.adjOf j) p = some c) ∧
              e.2 = (r.dev p).ip)) := by
  intro rem
  induction rem with
  | nil =>
    intro r r2 wf hb h
    have h2 : some r = some r2 := h
    injection h2 with h3
    subst h3
    refine ⟨fun x => ⟨rfl, rfl, rfl⟩, rfl, fun j _ => rfl, ?_⟩
    intro j hj
    exact absurd hj (List.not_mem_nil j)
  | cons i rest ih =>
    intro r r2 wf hb h
    have hi : i < r.n := hb i (List.mem_cons_self i rest)
    have hstep : R.construirAux r (i :: rest) =
        (if (r.dev i).tipo = "roteador" then
          match R.buildRows r i (r.dijkstra i).2 (List.range r.n)
              (r.dev i).tabela with
          | none => none
          | some tab => R.construirAux (R.setTabela r i tab) rest
        else R.construirAux r rest) := rfl
    rw [hstep] at h
    by_cases hc : (r.dev i).tipo = "roteador"
    · rw [if_pos hc] at h
      cases hbr : R.buildRows r i (r.dijkstra i).2 (List.range r.n)
          (r.dev i).tabela with
      | none =>
        rw [hbr] at h
        exact absurd h (by simp)
      | some tab0 =>
        rw [hbr] at h
        dsimp only at h
        have hskel : ∀ x,
            ((R.setTabela r i tab0).dev x).ip = (r.dev x).ip ∧
            ((R.setTabela r i tab0).dev x).vizinhos = (r.dev x).vizinhos ∧
            ((R.setTabela r i tab0).dev x).tipo = (r.dev x).tipo := by
          intro x
          by_cases hx : x = i
          · subst hx
            rw [setTabelaR_dev_self _ hi]
            exact ⟨rfl, rfl, rfl⟩
          · rw [setTabelaR_dev_ne _ hx]
            exact ⟨rfl, rfl, rfl⟩
        have hb' : ∀ j, j ∈ rest → j < (R.setTabela r i tab0).n := by
          intro j hj
          rw [setTabelaR_n]
          exact hb j (List.mem_cons_of_mem i hj)
        obtain ⟨skel2, hn2, tab3, tab4⟩ :=
          ih (R.setTabela r i tab0) r2 (setTabelaR_WF wf) hb' h
        have hrows : ∀ e, e ∈ tab0 → e ∈ (r.dev i).tabela ∨
            ∃ p, (∃ c, lookupC (r.adjOf i) p = some c) ∧
              e.2 = (r.dev p).ip := by
          intro e he
          rcases buildRowsR_mem (List.range r.n) _ _ hbr e he with h1 | h1
          · exact Or.inl h1
          · obtain ⟨p, dest, hw, he2⟩ := h1
            have hant : (r.dijkstra i).2 p = some i :=
              nextHopWalkR_pred _ _ _ hw
            have spout := dijkstra_spout r i wf hi
            obtain ⟨_, _, _, c, du, hlk, _, _⟩ := spout.link p i hant
            exact Or.inr ⟨p, ⟨c, hlk⟩, he2⟩
        refine ⟨?_, ?_, ?_, ?_⟩
        · intro x
          obtain ⟨a1, a2, a3⟩ := skel2 x
          obtain ⟨b1, b2, b3⟩ := hskel x
          exact ⟨a1.trans b1, a2.trans b2, a3.trans b3⟩
        · rw [hn2, setTabelaR_n]
        · intro j hj
          have hj1 : j ≠ i := fun hh => hj (hh ▸ List.mem_cons_self i rest)
          have hj2 : j ∉ rest := fun hh => hj (List.mem_cons_of_mem i hh)
          rw [tab3 j hj2, setTabelaR_dev_ne _ hj1]
        · intro j hj hr e he
          by_cases hjr : j ∈ rest
          · have hr' : ((R.setTabela r i tab0).dev j).tipo = "roteador" := by
              rw [(hskel j).2.2]
              exact hr
            rcases tab4 j hjr hr' e he with h1 | h1
            · by_cases hji : j = i
              · subst hji
                rw [setTabelaR_dev_self _ hi] at h1
                exact hrows e h1
              · rw [setTabelaR_dev_ne _ hji] at h1
                exact Or.inl h1
            · obtain ⟨p, ⟨c, hlk⟩, hipv⟩ := h1
              rw [setTabelaR_adjOf] at hlk
              refine Or.inr ⟨p, ⟨c, hlk⟩, ?_⟩
              rw [hipv, (hskel p).1]
          · have hji : j = i := by
              rcases List.mem_cons.mp hj with h1 | h1
              · exact h1
              · exact absurd h1 hjr
            subst hji
            have htab0 : (r2.dev j).tabela = tab0 := by
              rw [tab3 j hjr, setTabelaR_dev_self _ hi]
            rw [htab0] at he
            exact hrows e he
    · rw [if_neg hc] at h
      obtain ⟨skel2, hn2, tab3, tab4⟩ := ih r r2 wf
        (fun j hj => hb j (List.mem_cons_of_mem i hj)) h
      refine ⟨skel2, hn2, ?_, ?_⟩
      · intro j hj
        exact tab3 j (fun hh => hj (List.mem_cons_of_mem i hh))
      · intro j hj hr e he
        rcases List.mem_cons.mp hj with h1 | h1
        · subst h1
          exact absurd hr hc
        · exact tab4 j h1 hr e he

/-- C6: after any rebuild of the routing tables — rede.py's
`construir_tabelas_roteamento` as well as topologia.py's
`mostrar_tabelas_roteamento` — every entry of every router's table stores as
next hop a direct neighbor of that router, a key of its neighbor map, never
a device more than one hop away: rede.py stores that neighbor's ip,
topologia.py its name and address. -/
theorem claim6_next_hop_adjacency :
    (∀ (r r2 : R.Rede), R.WF r →
      (∀ i, i < r.n → (r.dev i).tabela = []) →
      r.construirTabelas = some r2 →
      ∀ i, i < r2.n → (r2.dev i).tipo = "roteador" →
        ∀ e, e ∈ (r2.dev i).tabela →
          ∃ p, (∃ l, lookupC ((r2.dev i).vizinhos) p = some l) ∧
            e.2 = (r2.dev p).ip) ∧
    (∀ (r : T.Rede) (fuel : Nat) (r2 : T.Rede), T.WF r →
      r.mostrarTabelas fuel = some r2 →
      ∀ i, i < r2.n → (r2.dev i).tipo = "roteador" →
        ∀ tab, (r2.dev i).tabela = some tab → ∀ e, e ∈ tab →
          ∃ p, (∃ l, lookupC ((r2.dev i).vizinhos) p = some l) ∧
            e.2.proximo = (r2.dev p).nome ∧
            e.2.ipProximo = (r2.dev p).ip) := by
  constructor
  · intro r r2 wf hemp h i hi hr e he
    have h2 : R.construirAux r (List.range r.n) = some r2 := h
    obtain ⟨skel, hn, _, tab4⟩ := construirAux_ok (List.range r.n) r r2 wf
      (fun j hj => List.mem_range.mp hj) h2
    have hi' : i < r.n := by
      rw [← hn]
      exact hi
    have hr' : (r.dev i).tipo = "roteador" := by
      rw [← (skel i).2.2]
      exact hr
    rcases tab4 i (List.mem_range.mpr hi') hr' e he with h1 | h1
    · rw [hemp i hi'] at h1
      exact absurd h1 (List.not_mem_nil e)
    · obtain ⟨p, ⟨c, hlk⟩, hipv⟩ := h1
      obtain ⟨l, hl⟩ := lookup_adjOf_R hlk
      refine ⟨p, ⟨l, ?_⟩, ?_⟩
      · rw [(skel i).2.1]
        exact hl
      · rw [hipv, ← (skel p).1]
  · exact mostrarTabelas_next_hop

theorem claim6_next_hop_adjacency_witness :
    (∃ p, (∃ l, lookupC ((((exRT.construirTabelas).getD exRT).dev 0).vizinhos)
        p = some l) ∧
      ((((exRT.construirTabelas).getD exRT).dev 0).tabela.headI).2 =
        (((exRT.construirTabelas).getD exRT).dev p).ip) ∧
    ∃ p, (∃ l, lookupC ((((exTR.mostrarTabelas 12).getD exTR).dev 0).vizinhos)
        p = some l) ∧
      (((((exTR.mostrarTabelas 12).getD exTR).dev 0).tabela.getD
          []).headI).2.proximo =
        (((exTR.mostrarTabelas 12).getD exTR).dev p).nome ∧
      (((((exTR.mostrarTabelas 12).getD exTR).dev 0).tabela.getD
          []).headI).2.ipProximo =
        (((exTR.mostrarTabelas 12).getD exTR).dev p).ip :=
  ⟨claim6_next_hop_adjacency.1 exRT ((exRT.construirTabelas).getD exRT)
     (wfR_of_devices exRT (by decide)) (by decide) (by rfl) 0 (by decide)
     (by decide) ((((exRT.construirTabelas).getD exRT).dev 0).tabela.headI)
     (by decide),
   claim6_next_hop_adjacency.2 exTR 12 ((exTR.mostrarTabelas 12).getD exTR)
     (wfT_of_devices exTR (by decide)) (by rfl) 0 (by decide) (by decide)
     ((((exTR.mostrarTabelas 12).getD exTR).dev 0).tabela.getD []) (by rfl)
     (((((exTR.mostrarTabelas 12).getD exTR).dev 0).tabela.getD []).headI)
     (by decide)⟩

/-- C8 as amended: construction is total in neither revision, and only
rede.py ever leaves the subnet undefined.  rede.py's constructor succeeds
whenever the address has at most one `'/'`, leaving the subnet `None` when
there is no mask at all (two or more `'/'` abort it, see the
counterexample); topologia.py's constructor parses the address
unconditionally, so a failure of the external collaborator propagates as
the constructor's own error — never as an undefined subnet — and
construction succeeds there exactly when the parse does. -/
theorem claim8_construction_amended :
    (∀ nome raw tipo gw,
      (splitOnC raw '/').length = 1 ∨ (splitOnC raw '/').length = 2 →
      ∃ d, R.mkDispositivo nome raw tipo gw none = Except.ok d ∧
        ((splitOnC raw '/').length = 1 → d.subnet = none)) ∧
    (∀ (parse : String → Except Unit String) nome raw tipo,
      (∀ e, parse raw = Except.error e →
        T.mkDispositivo parse nome raw tipo = Except.error e) ∧
      (∀ sn, parse raw = Except.ok sn →
        T.mkDispositivo parse nome raw tipo = Except.ok
          { nome := nome, ip := raw, subnet := sn, tipo := tipo,
            vizinhos := [],
            tabela := if tipo = "roteador" then some [] else none })) := by
  constructor
  · exact mkDispositivoR_ok
  · intro parse nome raw tipo
    constructor
    · intro e h
      unfold T.mkDispositivo
      rw [h]
    · intro sn h
      unfold T.mkDispositivo
      rw [h]

theorem claim8_construction_amended_witness :
    (∃ d, R.mkDispositivo "h1" "10.0.0.7" "host" none none = Except.ok d ∧
      ((splitOnC "10.0.0.7" '/').length = 1 → d.subnet = none)) ∧
    T.mkDispositivo (fun _ => Except.error ()) "h1" "10.0.0.7" "host" =
      Except.error () :=
  ⟨claim8_construction_amended.1 "h1" "10.0.0.7" "host" none
     (Or.inl (by decide)),
   (claim8_construction_amended.2 (fun _ => Except.error ())
     "h1" "10.0.0.7" "host").1 () (by rfl)⟩
